import Mathlib

/-
Verification of the ViperLogs library against its specification.

Each Python module relevant to the claims is shallowly embedded:

* viper_logs/ulid.py       : ULID encoding, parsing, ordering, monotonic factory
* viper_logs/indexer.py    : inverted index with TF-IDF search
* viper_logs/fuzzy_search.py : Levenshtein-based fuzzy index
* viper_logs/boolean_search.py : boolean query parser and evaluator
* viper_logs/search.py     : filter-scan log query engine

Python dicts are embedded as association lists with insertion order
(update-in-place on existing key, append on new key); machine integers are
Nat with explicit bounds; float arithmetic is embedded as exact Rat where
the code only adds/divides nonnegative quantities, and as Real where the
natural logarithm is involved.  Python exceptions are Option/Except.
-/

/-! ## Generic association-list (Python dict) operations -/

/-- Python dict lookup `m[k]` / `m.get(k)`: first (unique) binding of `k`. -/
def dlookup {α β : Type} [DecidableEq α] (k : α) : List (α × β) → Option β
  | [] => none
  | (k', v) :: rest => if k' = k then some v else dlookup k rest

/-- Python dict assignment `m[k] = v`: replace in place when the key exists,
append at the end otherwise (insertion order is preserved). -/
def dinsert {α β : Type} [DecidableEq α] (k : α) (v : β) : List (α × β) → List (α × β)
  | [] => [(k, v)]
  | (k', v') :: rest => if k' = k then (k, v) :: rest else (k', v') :: dinsert k v rest

/-- Python dict deletion `del m[k]` (on association lists with unique keys,
removing every binding of `k` is the same as removing the one binding). -/
def derase {α β : Type} [DecidableEq α] (k : α) : List (α × β) → List (α × β)
  | [] => []
  | (k', v) :: rest => if k' = k then derase k rest else (k', v) :: derase k rest

@[simp] theorem dlookup_nil {α β : Type} [DecidableEq α] (k : α) :
    dlookup (β := β) k [] = none := rfl

@[simp] theorem dlookup_cons {α β : Type} [DecidableEq α] (k k' : α) (v : β) (l : List (α × β)) :
    dlookup k ((k', v) :: l) = if k' = k then some v else dlookup k l := rfl

theorem dlookup_dinsert {α β : Type} [DecidableEq α] (k : α) (v : β) (l : List (α × β)) :
    dlookup k (dinsert k v l) = some v := by
  induction l with
  | nil => simp [dinsert]
  | cons p rest ih =>
    obtain ⟨k', v'⟩ := p
    by_cases h : k' = k <;> simp [dinsert, h, ih]

theorem dlookup_dinsert_ne {α β : Type} [DecidableEq α] (k k₀ : α) (v : β) (l : List (α × β))
    (h : k₀ ≠ k) : dlookup k (dinsert k₀ v l) = dlookup k l := by
  induction l with
  | nil => simp [dinsert, h]
  | cons p rest ih =>
    obtain ⟨k', v'⟩ := p
    by_cases h' : k' = k₀
    · subst h'
      simp [dinsert, h]
    · simp [dinsert, h', ih]

theorem dlookup_derase {α β : Type} [DecidableEq α] (k : α) (l : List (α × β)) :
    dlookup k (derase k l) = none := by
  induction l with
  | nil => rfl
  | cons p rest ih =>
    obtain ⟨k', v'⟩ := p
    by_cases h : k' = k
    · subst h
      simpa [derase] using ih
    · simp only [derase, if_neg h, dlookup_cons, if_neg h]
      exact ih

theorem dlookup_derase_ne {α β : Type} [DecidableEq α] (k k₀ : α) (l : List (α × β))
    (h : k₀ ≠ k) : dlookup k (derase k₀ l) = dlookup k l := by
  induction l with
  | nil => rfl
  | cons p rest ih =>
    obtain ⟨k', v'⟩ := p
    by_cases h' : k' = k₀
    · subst h'
      simp only [derase, if_pos rfl, dlookup_cons, if_neg h]
      exact ih
    · simp only [derase, if_neg h', dlookup_cons]
      by_cases h'' : k' = k <;> simp [h'', ih]

theorem derase_eq_nil {α β : Type} [DecidableEq α] (k : α) (l : List (α × β))
    (h : ∀ p ∈ l, p.1 = k) : derase k l = [] := by
  induction l with
  | nil => rfl
  | cons p rest ih =>
    have hp := h p (List.mem_cons_self _ _)
    simp only [derase, hp, if_true]
    exact ih fun q hq => h q (List.mem_cons_of_mem _ hq)

/-! ## Lexicographic comparison of equal-width sequences

Python compares strings lexicographically by code point; `listLtB lt` is that
comparison for an arbitrary strict order `lt` on the elements. -/

def listLtB {α : Type} (lt : α → α → Bool) : List α → List α → Bool
  | _, [] => false
  | [], _ :: _ => true
  | a :: as, b :: bs => if lt a b then true else if lt b a then false else listLtB lt as bs

section ListLtB

variable {α : Type} (lt : α → α → Bool)

theorem listLtB_irrefl (hirr : ∀ a, lt a a = false) (l : List α) :
    listLtB lt l l = false := by
  induction l with
  | nil => rfl
  | cons a as ih => simp [listLtB, hirr, ih]

theorem listLtB_append (htri : ∀ a b, lt a b = false → lt b a = false → a = b)
    (xs ys xs' ys' : List α) (hlen : xs.length = xs'.length) :
    listLtB lt (xs ++ ys) (xs' ++ ys') = true ↔
      listLtB lt xs xs' = true ∨ (xs = xs' ∧ listLtB lt ys ys' = true) := by
  induction xs generalizing xs' with
  | nil =>
    cases xs' with
    | nil => simp [listLtB]
    | cons b bs => simp at hlen
  | cons a as ih =>
    cases xs' with
    | nil => simp at hlen
    | cons b bs =>
      have hlen' : as.length = bs.length := by simpa using hlen
      cases hab : lt a b with
      | true => simp [listLtB, hab]
      | false =>
        cases hba : lt b a with
        | true =>
          have hne : ¬(a :: as = b :: bs) := by
            intro h
            injection h with h1 _
            subst h1
            rw [hab] at hba
            exact Bool.noConfusion hba
          simp [listLtB, hab, hba, hne]
        | false =>
          have heq : a = b := htri a b hab hba
          subst heq
          simp only [List.cons_append, listLtB, hab, hba, Bool.false_eq_true, if_false,
            List.cons.injEq, true_and]
          exact ih bs hlen'

theorem listLtB_map {β : Type} (lt' : β → β → Bool) (f : α → β) (P : α → Prop)
    (hmono : ∀ a, P a → ∀ b, P b → lt' (f a) (f b) = lt a b)
    (xs ys : List α) (hxs : ∀ x ∈ xs, P x) (hys : ∀ y ∈ ys, P y) :
    listLtB lt' (xs.map f) (ys.map f) = listLtB lt xs ys := by
  induction xs generalizing ys with
  | nil => cases ys <;> simp [listLtB]
  | cons a as ih =>
    cases ys with
    | nil => simp [listLtB]
    | cons b bs =>
      have ha : P a := hxs a (List.mem_cons_self _ _)
      have hb : P b := hys b (List.mem_cons_self _ _)
      simp only [List.map_cons, listLtB, hmono a ha b hb, hmono b hb a ha]
      by_cases h1 : lt a b = true <;> by_cases h2 : lt b a = true <;>
        simp [h1, h2,
          ih bs (fun x hx => hxs x (List.mem_cons_of_mem _ hx))
            (fun y hy => hys y (List.mem_cons_of_mem _ hy))]

theorem map_inj_on {β : Type} (f : α → β) (P : α → Prop)
    (hinj : ∀ a, P a → ∀ b, P b → f a = f b → a = b)
    (xs ys : List α) (hxs : ∀ x ∈ xs, P x) (hys : ∀ y ∈ ys, P y) :
    xs.map f = ys.map f ↔ xs = ys := by
  induction xs generalizing ys with
  | nil => cases ys <;> simp
  | cons a as ih =>
    cases ys with
    | nil => simp
    | cons b bs =>
      have ha : P a := hxs a (List.mem_cons_self _ _)
      have hb : P b := hys b (List.mem_cons_self _ _)
      simp only [List.map_cons, List.cons.injEq]
      constructor
      · rintro ⟨h1, h2⟩
        exact ⟨hinj a ha b hb h1,
          (ih bs (fun x hx => hxs x (List.mem_cons_of_mem _ hx))
            (fun y hy => hys y (List.mem_cons_of_mem _ hy))).mp h2⟩
      · rintro ⟨rfl, rfl⟩
        exact ⟨rfl, rfl⟩

end ListLtB

/-! ## ULID (viper_logs/ulid.py) -/

/-- Crockford Base32 alphabet (`ULID.ENCODING_CHARS`). -/
def ENCODING_CHARS : String := "0123456789ABCDEFGHJKMNPQRSTVWXYZ"

def encChars : List Char := ENCODING_CHARS.data

/-- `2^48 - 1`, maximum timestamp (`ULID.TIME_MAX`). -/
def TIME_MAX : Nat := 281474976710655

/-- `2^80 - 1`, maximum randomness (`ULID.RANDOM_MAX`). -/
def RANDOM_MAX : Nat := (1 <<< 80) - 1

def TIME_LEN : Nat := 10
def RANDOM_LEN : Nat := 16

/-- One character of the encoding: `ENCODING_CHARS[d]` for a 5-bit digit. -/
def encChar (d : Nat) : Char := encChars.getD d ' '

/-- The digit-extraction loop of `ULID.__str__`: `n` iterations of
prepending `val & 0x1F` and shifting `val` right by 5 produce the `n`
low base-32 digits of `val`, most significant first. -/
def encodeLoop : Nat → Nat → List Nat
  | 0, _ => []
  | n + 1, v => encodeLoop n (v / 32) ++ [v % 32]

/-- `ULID.__str__`: the timestamp loop *prepends* each character
(`encoding = ENCODING_CHARS[val & 0x1F] + encoding`), yielding its 10
digits most significant first, but the randomness loop *appends*
(`encoding += ENCODING_CHARS[val & 0x1F]`), so its 16 digits come out
least significant first — the reverse of the most-significant-first
expansion. -/
def ulidChars (t r : Nat) : List Char :=
  (encodeLoop TIME_LEN t).map encChar ++
    ((encodeLoop RANDOM_LEN r).reverse).map encChar

/-- Python string `<` (code-point lexicographic). -/
def pyStrLt (s t : List Char) : Bool := listLtB (fun a b => a < b) s t

/-- `ULID.__lt__`: compare timestamps, then randomness. -/
def ulidLt (t₁ r₁ t₂ r₂ : Nat) : Prop :=
  if t₁ ≠ t₂ then t₁ < t₂ else r₁ < r₂

instance (t₁ r₁ t₂ r₂ : Nat) : Decidable (ulidLt t₁ r₁ t₂ r₂) := by
  unfold ulidLt; infer_instance

/-! ### Digit-sequence lemmas -/

@[simp] theorem encodeLoop_length (n v : Nat) : (encodeLoop n v).length = n := by
  induction n generalizing v with
  | zero => rfl
  | succ n ih => simp [encodeLoop, ih]

theorem encodeLoop_mem_lt (n v : Nat) : ∀ d ∈ encodeLoop n v, d < 32 := by
  induction n generalizing v with
  | zero => intro d h; simp [encodeLoop] at h
  | succ n ih =>
    intro d h
    simp only [encodeLoop, List.mem_append, List.mem_singleton] at h
    rcases h with h | rfl
    · exact ih _ d h
    · omega

/-- Digit comparison helper: split a natural at its low base-32 digit. -/
theorem nat_lt_iff_div32 (x y : Nat) :
    x < y ↔ x / 32 < y / 32 ∨ (x / 32 = y / 32 ∧ x % 32 < y % 32) := by
  omega

theorem encodeLoop_mod (n : Nat) : ∀ v, encodeLoop n v = encodeLoop n (v % 32 ^ n) := by
  induction n with
  | zero => intro v; rfl
  | succ n ih =>
    intro v
    have h1 : v % 32 ^ (n + 1) / 32 = v / 32 % 32 ^ n := by
      rw [pow_succ, mul_comm]
      exact Nat.mod_mul_right_div_self v 32 (32 ^ n)
    have h2 : v % 32 ^ (n + 1) % 32 = v % 32 := by
      have : (32 : Nat) ∣ 32 ^ (n + 1) := dvd_pow_self 32 (Nat.succ_ne_zero n)
      exact Nat.mod_mod_of_dvd v this
    calc encodeLoop (n + 1) v = encodeLoop n (v / 32) ++ [v % 32] := rfl
      _ = encodeLoop n (v / 32 % 32 ^ n) ++ [v % 32] := by rw [← ih (v / 32)]
      _ = encodeLoop n (v % 32 ^ (n + 1) / 32) ++ [v % 32 ^ (n + 1) % 32] := by rw [h1, h2]
      _ = encodeLoop (n + 1) (v % 32 ^ (n + 1)) := rfl

/-- Injectivity of the digit expansion, modulo the representable range. -/
theorem encodeLoop_inj (n : Nat) : ∀ a b, encodeLoop n a = encodeLoop n b ↔
    a % 32 ^ n = b % 32 ^ n := by
  induction n with
  | zero => intro a b; simp [encodeLoop, Nat.mod_one]
  | succ n ih =>
    intro a b
    have hlen : (encodeLoop n (a / 32)).length = (encodeLoop n (b / 32)).length := by simp
    constructor
    · intro h
      simp only [encodeLoop] at h
      have := List.append_inj h hlen
      obtain ⟨h1, h2⟩ := this
      have hd : a / 32 % 32 ^ n = b / 32 % 32 ^ n := (ih _ _).mp h1
      have hm : a % 32 = b % 32 := by simpa using h2
      have e1 : a % 32 ^ (n + 1) / 32 = a / 32 % 32 ^ n := by
        rw [pow_succ, mul_comm]; exact Nat.mod_mul_right_div_self a 32 (32 ^ n)
      have e2 : b % 32 ^ (n + 1) / 32 = b / 32 % 32 ^ n := by
        rw [pow_succ, mul_comm]; exact Nat.mod_mul_right_div_self b 32 (32 ^ n)
      have e3 : a % 32 ^ (n + 1) % 32 = a % 32 :=
        Nat.mod_mod_of_dvd a (dvd_pow_self 32 (Nat.succ_ne_zero n))
      have e4 : b % 32 ^ (n + 1) % 32 = b % 32 :=
        Nat.mod_mod_of_dvd b (dvd_pow_self 32 (Nat.succ_ne_zero n))
      omega
    · intro h
      rw [encodeLoop_mod (n + 1) a, encodeLoop_mod (n + 1) b, h]

/-- The lexicographic order of the fixed-width digit expansion is the numeric
order of the encoded values (modulo the representable range). -/
theorem encodeLoop_lt (n : Nat) : ∀ a b,
    listLtB (fun x y : Nat => decide (x < y)) (encodeLoop n a) (encodeLoop n b) = true ↔
      a % 32 ^ n < b % 32 ^ n := by
  induction n with
  | zero => intro a b; simp [encodeLoop, listLtB, Nat.mod_one]
  | succ n ih =>
    intro a b
    have htri : ∀ x y : Nat, decide (x < y) = false → decide (y < x) = false → x = y := by
      intro x y hx hy
      simp at hx hy
      omega
    have happ := listLtB_append (fun x y : Nat => decide (x < y)) htri
      (encodeLoop n (a / 32)) [a % 32] (encodeLoop n (b / 32)) [b % 32] (by simp)
    simp only [encodeLoop]
    rw [happ, ih, encodeLoop_inj]
    have e1 : a % 32 ^ (n + 1) / 32 = a / 32 % 32 ^ n := by
      rw [pow_succ, mul_comm]; exact Nat.mod_mul_right_div_self a 32 (32 ^ n)
    have e2 : b % 32 ^ (n + 1) / 32 = b / 32 % 32 ^ n := by
      rw [pow_succ, mul_comm]; exact Nat.mod_mul_right_div_self b 32 (32 ^ n)
    have e3 : a % 32 ^ (n + 1) % 32 = a % 32 :=
      Nat.mod_mod_of_dvd a (dvd_pow_self 32 (Nat.succ_ne_zero n))
    have e4 : b % 32 ^ (n + 1) % 32 = b % 32 :=
      Nat.mod_mod_of_dvd b (dvd_pow_self 32 (Nat.succ_ne_zero n))
    have hsingle : listLtB (fun x y : Nat => decide (x < y)) [a % 32] [b % 32] = true ↔
        a % 32 < b % 32 := by
      cases hxy : decide (a % 32 < b % 32) <;> cases hyx : decide (b % 32 < a % 32) <;>
        simp_all [listLtB]
    rw [hsingle]
    rw [nat_lt_iff_div32 (a % 32 ^ (n + 1)) (b % 32 ^ (n + 1))]
    omega

/-! ### Character-level lemmas for the Crockford alphabet -/

theorem encChar_lt_iff : ∀ a, a < 32 → ∀ b, b < 32 → ((encChar a < encChar b) ↔ a < b) := by
  decide

theorem encChar_inj : ∀ a, a < 32 → ∀ b, b < 32 → encChar a = encChar b → a = b := by
  decide

theorem encChars_indexOf_encChar : ∀ d, d < 32 → encChars.indexOf (encChar d) = d := by
  decide

theorem encChars_contains_encChar : ∀ d, d < 32 → encChars.contains (encChar d) = true := by
  decide

theorem encChar_toUpper : ∀ d, d < 32 → (encChar d).toUpper = encChar d := by
  decide

theorem charLt_tri : ∀ a b : Char, decide (a < b) = false → decide (b < a) = false → a = b := by
  intro a b h1 h2
  exact le_antisymm (not_lt.mp (of_decide_eq_false h2)) (not_lt.mp (of_decide_eq_false h1))

/-- Char-level lexicographic comparison of a fixed-width encoded block is the
numeric comparison of the two encoded values. -/
theorem pyStrLt_encode_block (n a b : Nat) (ha : a < 32 ^ n) (hb : b < 32 ^ n) :
    listLtB (fun x y : Char => decide (x < y))
        ((encodeLoop n a).map encChar) ((encodeLoop n b).map encChar) = true ↔ a < b := by
  rw [listLtB_map (fun x y : Nat => decide (x < y)) (fun x y : Char => decide (x < y))
      encChar (fun d => d < 32)
      (fun x hx y hy => by
        have := encChar_lt_iff x hx y hy
        by_cases h : x < y <;> simp [h, this])
      _ _ (encodeLoop_mem_lt n a) (encodeLoop_mem_lt n b)]
  rw [encodeLoop_lt n a b, Nat.mod_eq_of_lt ha, Nat.mod_eq_of_lt hb]

theorem encode_block_inj (n a b : Nat) (ha : a < 32 ^ n) (hb : b < 32 ^ n) :
    (encodeLoop n a).map encChar = (encodeLoop n b).map encChar ↔ a = b := by
  rw [map_inj_on encChar (fun d => d < 32) (fun x hx y hy => encChar_inj x hx y hy)
      _ _ (encodeLoop_mem_lt n a) (encodeLoop_mem_lt n b)]
  rw [encodeLoop_inj n a b, Nat.mod_eq_of_lt ha, Nat.mod_eq_of_lt hb]

theorem time_lt_pow : TIME_MAX < 32 ^ TIME_LEN := by decide

theorem random_lt_pow : RANDOM_MAX < 32 ^ RANDOM_LEN := by
  show (1 <<< 80) - 1 < 32 ^ 16
  decide

/-- The value whose most-significant-first base-32 digit expansion (at the
given width) is the reverse of the given value's: what comparing or decoding
the appended randomness block most-significant-first actually sees. -/
def digitRev32 : Nat → Nat → Nat
  | 0, _ => 0
  | n + 1, v => (v % 32) * 32 ^ n + digitRev32 n (v / 32)

theorem digitRev32_lt (n : Nat) : ∀ v, digitRev32 n v < 32 ^ n := by
  induction n with
  | zero => intro v; simp [digitRev32]
  | succ n ih =>
    intro v
    have h1 : v % 32 < 32 := Nat.mod_lt v (by omega)
    have h2 : digitRev32 n (v / 32) < 32 ^ n := ih (v / 32)
    have h3 : (v % 32) * 32 ^ n ≤ 31 * 32 ^ n := Nat.mul_le_mul_right _ (by omega)
    simp only [digitRev32]
    have hp : 32 ^ (n + 1) = 32 * 32 ^ n := by rw [pow_succ, mul_comm]
    omega

/-- Peeling the most significant digit off a fixed-width expansion. -/
theorem encodeLoop_msb (n : Nat) : ∀ d w, d < 32 → w < 32 ^ n →
    encodeLoop (n + 1) (d * 32 ^ n + w) = d :: encodeLoop n w := by
  induction n with
  | zero =>
    intro d w hd hw
    have hw0 : w = 0 := by omega
    subst hw0
    show encodeLoop 0 ((d * 1 + 0) / 32) ++ [(d * 1 + 0) % 32] = [d]
    have : (d * 1 + 0) % 32 = d := by omega
    simp [encodeLoop, this, hd]
  | succ n ih =>
    intro d w hd hw
    have hdiv : (d * 32 ^ (n + 1) + w) / 32 = d * 32 ^ n + w / 32 := by
      have hp : d * 32 ^ (n + 1) = d * 32 ^ n * 32 := by rw [pow_succ, ← mul_assoc]
      omega
    have hmod : (d * 32 ^ (n + 1) + w) % 32 = w % 32 := by
      have hp : d * 32 ^ (n + 1) = d * 32 ^ n * 32 := by rw [pow_succ, ← mul_assoc]
      omega
    have hw32 : w / 32 < 32 ^ n := by
      have hp : 32 ^ (n + 1) = 32 ^ n * 32 := pow_succ 32 n
      omega
    calc encodeLoop (n + 2) (d * 32 ^ (n + 1) + w)
        = encodeLoop (n + 1) ((d * 32 ^ (n + 1) + w) / 32) ++
            [(d * 32 ^ (n + 1) + w) % 32] := rfl
      _ = encodeLoop (n + 1) (d * 32 ^ n + w / 32) ++ [w % 32] := by rw [hdiv, hmod]
      _ = (d :: encodeLoop n (w / 32)) ++ [w % 32] := by rw [ih d (w / 32) hd hw32]
      _ = d :: encodeLoop (n + 1) w := rfl

/-- The reversed digit expansion of `v` is the expansion of `digitRev32`. -/
theorem encodeLoop_digitRev (n : Nat) : ∀ v,
    encodeLoop n (digitRev32 n v) = (encodeLoop n v).reverse := by
  induction n with
  | zero => intro v; rfl
  | succ n ih =>
    intro v
    have h1 : v % 32 < 32 := Nat.mod_lt v (by omega)
    calc encodeLoop (n + 1) ((v % 32) * 32 ^ n + digitRev32 n (v / 32))
        = (v % 32) :: encodeLoop n (digitRev32 n (v / 32)) :=
          encodeLoop_msb n (v % 32) (digitRev32 n (v / 32)) h1 (digitRev32_lt n (v / 32))
      _ = (v % 32) :: (encodeLoop n (v / 32)).reverse := by rw [ih (v / 32)]
      _ = (encodeLoop n (v / 32) ++ [v % 32]).reverse := by
          rw [List.reverse_append]
          rfl
      _ = (encodeLoop (n + 1) v).reverse := rfl

/-- Core ordering property of the rendering: lexicographic string order is
timestamp-major, but within equal timestamps it compares the
*digit-reversed* randomness values — the randomness block is emitted least
significant digit first. -/
theorem ulid_string_order (t₁ r₁ t₂ r₂ : Nat)
    (ht₁ : t₁ ≤ TIME_MAX) (ht₂ : t₂ ≤ TIME_MAX) :
    pyStrLt (ulidChars t₁ r₁) (ulidChars t₂ r₂) = true ↔
      (t₁ < t₂ ∨ (t₁ = t₂ ∧
        digitRev32 RANDOM_LEN r₁ < digitRev32 RANDOM_LEN r₂)) := by
  have ht₁' : t₁ < 32 ^ TIME_LEN := lt_of_le_of_lt ht₁ time_lt_pow
  have ht₂' : t₂ < 32 ^ TIME_LEN := lt_of_le_of_lt ht₂ time_lt_pow
  have hr₁' : digitRev32 RANDOM_LEN r₁ < 32 ^ RANDOM_LEN := digitRev32_lt _ _
  have hr₂' : digitRev32 RANDOM_LEN r₂ < 32 ^ RANDOM_LEN := digitRev32_lt _ _
  have hlen : ((encodeLoop TIME_LEN t₁).map encChar).length =
      ((encodeLoop TIME_LEN t₂).map encChar).length := by simp
  show listLtB (fun x y : Char => decide (x < y)) _ _ = true ↔ _
  unfold ulidChars
  rw [← encodeLoop_digitRev RANDOM_LEN r₁, ← encodeLoop_digitRev RANDOM_LEN r₂]
  rw [listLtB_append (fun x y : Char => decide (x < y)) charLt_tri _ _ _ _ hlen]
  rw [pyStrLt_encode_block TIME_LEN t₁ t₂ ht₁' ht₂',
    pyStrLt_encode_block RANDOM_LEN _ _ hr₁' hr₂',
    encode_block_inj TIME_LEN t₁ t₂ ht₁' ht₂']

/-- C1 (amended): the rendered 26-character string order is timestamp-major
— for valid identifiers with different timestamps it agrees with timestamp
order — but within equal timestamps it compares the base-32
*digit-reversed* randomness values, because `__str__` appends the
randomness characters least significant digit first; it therefore does not
agree with `(timestamp, randomness)` pair order. -/
theorem c1_string_order_characterization (t₁ r₁ t₂ r₂ : Nat)
    (ht₁ : t₁ ≤ TIME_MAX) (ht₂ : t₂ ≤ TIME_MAX) :
    (ulidChars t₁ r₁).length = 26 ∧
    (pyStrLt (ulidChars t₁ r₁) (ulidChars t₂ r₂) = true ↔
      (t₁ < t₂ ∨ (t₁ = t₂ ∧
        digitRev32 RANDOM_LEN r₁ < digitRev32 RANDOM_LEN r₂))) := by
  refine ⟨by simp [ulidChars, TIME_LEN, RANDOM_LEN], ?_⟩
  exact ulid_string_order t₁ r₁ t₂ r₂ ht₁ ht₂

theorem c1_string_order_characterization_witness :
    (3 ≤ TIME_MAX ∧ 3 ≤ TIME_MAX) ∧
    ((ulidChars 3 7).length = 26 ∧
      (pyStrLt (ulidChars 3 7) (ulidChars 3 5) = true ↔
        (3 < 3 ∨ (3 = 3 ∧
          digitRev32 RANDOM_LEN 7 < digitRev32 RANDOM_LEN 5)))) :=
  ⟨by decide, c1_string_order_characterization 3 7 3 5 (by decide) (by decide)⟩

/-- C1 counterexample: `x = (0, 1)` and `y = (0, 32)` are valid identifiers
with `x < y` in pair order, yet `str(x)` renders `…1000000000000000` and
`str(y)` renders `…0100000000000000`, so `str(y) < str(x)`: string order
disagrees with pair order. -/
theorem c1_counterexample :
    (0 ≤ TIME_MAX ∧ 1 ≤ RANDOM_MAX ∧ 32 ≤ RANDOM_MAX) ∧
    ulidLt 0 1 0 32 ∧
    pyStrLt (ulidChars 0 1) (ulidChars 0 32) = false ∧
    pyStrLt (ulidChars 0 32) (ulidChars 0 1) = true := by
  refine ⟨by decide, by decide, by decide, by decide⟩

/-! ### Parsing (`ULID.from_str`) -/

/-- `ULID.from_str` followed by the constructor's range validation.
`none` models a raised `ValueError`. -/
def from_str (s : List Char) : Option (Nat × Nat) :=
  if s.length ≠ TIME_LEN + RANDOM_LEN then none
  else
    let u := s.map Char.toUpper
    if u.all (fun c => encChars.contains c) then
      let t := (u.take TIME_LEN).foldl (fun acc c => acc * 32 + encChars.indexOf c) 0
      let r := (u.drop TIME_LEN).foldl (fun acc c => acc * 32 + encChars.indexOf c) 0
      if t ≤ TIME_MAX ∧ r ≤ RANDOM_MAX then some (t, r) else none
    else none

/-- The decoding fold inverts the encoding loop. -/
theorem decode_encodeLoop (n : Nat) : ∀ v acc,
    ((encodeLoop n v).map encChar).foldl (fun a c => a * 32 + encChars.indexOf c) acc =
      acc * 32 ^ n + v % 32 ^ n := by
  induction n with
  | zero => intro v acc; simp [encodeLoop, Nat.mod_one]
  | succ n ih =>
    intro v acc
    have hidx : encChars.indexOf (encChar (v % 32)) = v % 32 :=
      encChars_indexOf_encChar (v % 32) (Nat.mod_lt v (by omega))
    have e1 : v % 32 ^ (n + 1) / 32 = v / 32 % 32 ^ n := by
      rw [pow_succ, mul_comm]; exact Nat.mod_mul_right_div_self v 32 (32 ^ n)
    have e2 : v % 32 ^ (n + 1) % 32 = v % 32 :=
      Nat.mod_mod_of_dvd v (dvd_pow_self 32 (Nat.succ_ne_zero n))
    calc ((encodeLoop (n + 1) v).map encChar).foldl
          (fun a c => a * 32 + encChars.indexOf c) acc
        = ((encodeLoop n (v / 32)).map encChar ++ [encChar (v % 32)]).foldl
            (fun a c => a * 32 + encChars.indexOf c) acc := by
          simp [encodeLoop]
      _ = (acc * 32 ^ n + v / 32 % 32 ^ n) * 32 + encChars.indexOf (encChar (v % 32)) := by
          rw [List.foldl_append, ih (v / 32) acc]
          rfl
      _ = acc * 32 ^ (n + 1) + v % 32 ^ (n + 1) := by
          rw [hidx]
          have hacc : acc * 32 ^ (n + 1) = acc * 32 ^ n * 32 := by
            rw [pow_succ, ← mul_assoc]
          omega

theorem map_toUpper_fixed (l : List Char) (h : ∀ c ∈ l, c.toUpper = c) :
    l.map Char.toUpper = l := by
  induction l with
  | nil => rfl
  | cons c cs ih =>
    simp only [List.map_cons, h c (List.mem_cons_self _ _), List.cons.injEq, true_and]
    exact ih fun x hx => h x (List.mem_cons_of_mem _ hx)

theorem ulidChars_mem_enc (t r : Nat) :
    ∀ c ∈ ulidChars t r, ∃ d, d < 32 ∧ c = encChar d := by
  intro c hc
  simp only [ulidChars, List.mem_append, List.mem_map, List.mem_reverse] at hc
  rcases hc with ⟨d, hd, rfl⟩ | ⟨d, hd, rfl⟩
  · exact ⟨d, encodeLoop_mem_lt _ _ d hd, rfl⟩
  · exact ⟨d, encodeLoop_mem_lt _ _ d hd, rfl⟩

/-- C3 (amended): parsing the rendered string of a valid identifier always
succeeds (in any lower/upper case variant) and recovers the timestamp
exactly, but — because `__str__` emits the randomness block least
significant digit first while `from_str` decodes it most significant digit
first — the recovered randomness is the base-32 *digit-reversal* of the
original; the full round-trip holds only for digit-palindromic
randomness. -/
theorem c3_parse_render_digit_reverse (t r : Nat) (ht : t ≤ TIME_MAX) :
    from_str (ulidChars t r) = some (t, digitRev32 RANDOM_LEN r) ∧
    (∀ s : List Char, s.map Char.toUpper = ulidChars t r →
      from_str s = some (t, digitRev32 RANDOM_LEN r)) := by
  have ht' : t < 32 ^ TIME_LEN := lt_of_le_of_lt ht time_lt_pow
  have hr' : digitRev32 RANDOM_LEN r < 32 ^ RANDOM_LEN := digitRev32_lt _ _
  have hrmax : digitRev32 RANDOM_LEN r ≤ RANDOM_MAX := by
    have hp : 32 ^ RANDOM_LEN = RANDOM_MAX + 1 := by
      show (32 : Nat) ^ 16 = (1 <<< 80) - 1 + 1
      decide
    omega
  have main : ∀ s : List Char, s.map Char.toUpper = ulidChars t r →
      from_str s = some (t, digitRev32 RANDOM_LEN r) := by
    intro s hs
    have hlen : s.length = TIME_LEN + RANDOM_LEN := by
      have := congrArg List.length hs
      simpa [ulidChars] using this
    have hall : (ulidChars t r).all (fun c => encChars.contains c) = true := by
      rw [List.all_eq_true]
      intro c hc
      obtain ⟨d, hd, rfl⟩ := ulidChars_mem_enc t r c hc
      exact encChars_contains_encChar d hd
    have htake : (ulidChars t r).take TIME_LEN = (encodeLoop TIME_LEN t).map encChar := by
      have h10 : ((encodeLoop TIME_LEN t).map encChar).length = TIME_LEN := by simp
      show ((encodeLoop TIME_LEN t).map encChar ++
        ((encodeLoop RANDOM_LEN r).reverse).map encChar).take TIME_LEN = _
      exact List.take_left' h10
    have hdrop : (ulidChars t r).drop TIME_LEN =
        ((encodeLoop RANDOM_LEN r).reverse).map encChar := by
      have h10 : ((encodeLoop TIME_LEN t).map encChar).length = TIME_LEN := by simp
      show ((encodeLoop TIME_LEN t).map encChar ++
        ((encodeLoop RANDOM_LEN r).reverse).map encChar).drop TIME_LEN = _
      exact List.drop_left' h10
    have hdect : ((encodeLoop TIME_LEN t).map encChar).foldl
        (fun a c => a * 32 + encChars.indexOf c) 0 = t := by
      rw [decode_encodeLoop, Nat.mod_eq_of_lt ht']
      omega
    have hdecr : (((encodeLoop RANDOM_LEN r).reverse).map encChar).foldl
        (fun a c => a * 32 + encChars.indexOf c) 0 = digitRev32 RANDOM_LEN r := by
      rw [← encodeLoop_digitRev RANDOM_LEN r]
      rw [decode_encodeLoop, Nat.mod_eq_of_lt hr']
      omega
    unfold from_str
    rw [if_neg (by omega)]
    simp only [hs, hall, if_true, htake, hdrop, hdect, hdecr]
    rw [if_pos ⟨ht, hrmax⟩]
  refine ⟨?_, main⟩
  apply main
  apply map_toUpper_fixed
  intro c hc
  obtain ⟨d, hd, rfl⟩ := ulidChars_mem_enc t r c hc
  exact encChar_toUpper d hd

theorem c3_parse_render_digit_reverse_witness :
    (5 ≤ TIME_MAX) ∧
    (from_str (ulidChars 5 9) = some (5, digitRev32 RANDOM_LEN 9) ∧
      (∀ s : List Char, s.map Char.toUpper = ulidChars 5 9 →
        from_str s = some (5, digitRev32 RANDOM_LEN 9))) :=
  ⟨by decide, c3_parse_render_digit_reverse 5 9 (by decide)⟩

/-- C3 counterexample: `x = (0, 1)` is a valid identifier, yet
`from_str (str x)` returns randomness `32^15` — the digit-reversal of `1`
— not `1`: the round-trip digit-reverses the randomness component. -/
theorem c3_counterexample :
    (0 ≤ TIME_MAX ∧ 1 ≤ RANDOM_MAX) ∧
    from_str (ulidChars 0 1) = some (0, 32 ^ 15) ∧
    (32 : Nat) ^ 15 ≠ 1 := by
  refine ⟨by decide, by decide, by decide⟩

/-! ### Monotonic generation (`ULID.generate_monotonic`)

The factory runs under a lock, so the concurrent behaviour is a sequence of
atomic calls.  One call reads the clock (`now`); when it collides with the
stored timestamp and the stored randomness is maximal it spins until the
clock reading differs (`spin` is that final reading), drawing `fresh`
randomness; otherwise it increments the stored randomness or draws fresh
randomness for a new millisecond.  The returned pair is also the new stored
`(_last_timestamp, _last_randomness)` state. -/

def generate_monotonic (last_t last_r now spin fresh : Nat) : Nat × Nat :=
  if now = last_t then
    if last_r = RANDOM_MAX then (spin, fresh)
    else (now, last_r + 1)
  else (now, fresh)

/-- C2 (amended): under a non-decreasing process clock, each
`generate_monotonic` call strictly exceeds its predecessor in
`(timestamp, randomness)` pair order (`ULID.__lt__`): in the same
millisecond the previous randomness is incremented by 1 rather than
redrawn, and on randomness overflow the generator waits for a different
clock reading and draws fresh randomness.  The *string* form sorts strictly
after the predecessor's whenever the timestamp advanced, but it does not in
general for same-millisecond increments — the randomness block is rendered
least significant digit first. -/
theorem c2_monotonic_pair_increases (pt pr now spin fresh : Nat)
    (hpt : pt ≤ TIME_MAX) (hpr : pr ≤ RANDOM_MAX)
    (hnow : now ≤ TIME_MAX) (hspin : spin ≤ TIME_MAX) (hfresh : fresh ≤ RANDOM_MAX)
    (hclock₁ : pt ≤ now) (hclock₂ : pt ≤ spin) (hexit : spin ≠ pt) :
    (pt < (generate_monotonic pt pr now spin fresh).1 ∨
      (pt = (generate_monotonic pt pr now spin fresh).1 ∧
        pr < (generate_monotonic pt pr now spin fresh).2)) ∧
    (generate_monotonic pt pr now spin fresh).2 ≤ RANDOM_MAX ∧
    (pt < (generate_monotonic pt pr now spin fresh).1 →
      pyStrLt (ulidChars pt pr)
        (ulidChars (generate_monotonic pt pr now spin fresh).1
          (generate_monotonic pt pr now spin fresh).2) = true) ∧
    (now = pt ∧ pr ≠ RANDOM_MAX → generate_monotonic pt pr now spin fresh = (now, pr + 1)) ∧
    (now = pt ∧ pr = RANDOM_MAX → generate_monotonic pt pr now spin fresh = (spin, fresh)) := by
  by_cases h1 : now = pt
  · by_cases h2 : pr = RANDOM_MAX
    · have hres : generate_monotonic pt pr now spin fresh = (spin, fresh) := by
        simp [generate_monotonic, h1, h2]
      rw [hres]
      have hlt : pt < spin := lt_of_le_of_ne hclock₂ (Ne.symm hexit)
      refine ⟨Or.inl hlt, hfresh, ?_, ?_, ?_⟩
      · intro _
        exact (ulid_string_order pt pr spin fresh hpt hspin).mpr (Or.inl hlt)
      · intro ⟨_, hc⟩; exact absurd h2 hc
      · intro _; rfl
    · have hres : generate_monotonic pt pr now spin fresh = (now, pr + 1) := by
        simp [generate_monotonic, h1, h2]
      rw [hres]
      have hr1 : pr + 1 ≤ RANDOM_MAX := by
        rcases Nat.lt_or_ge pr RANDOM_MAX with h | h
        · omega
        · exact absurd (le_antisymm hpr h) h2
      refine ⟨Or.inr ⟨h1.symm, Nat.lt_succ_self pr⟩, hr1, ?_, ?_, ?_⟩
      · intro hlt
        exact (ulid_string_order pt pr now (pr + 1) hpt hnow).mpr (Or.inl hlt)
      · intro _; rfl
      · intro ⟨_, hc⟩; exact absurd hc h2
  · have hres : generate_monotonic pt pr now spin fresh = (now, fresh) := by
      simp [generate_monotonic, h1]
    rw [hres]
    have hlt : pt < now := lt_of_le_of_ne hclock₁ (Ne.symm h1)
    refine ⟨Or.inl hlt, hfresh, ?_, ?_, ?_⟩
    · intro _
      exact (ulid_string_order pt pr now fresh hpt hnow).mpr (Or.inl hlt)
    · intro ⟨hc, _⟩; exact absurd hc h1
    · intro ⟨hc, _⟩; exact absurd hc h1

theorem c2_monotonic_pair_increases_witness :
    (10 ≤ TIME_MAX ∧ 4 ≤ RANDOM_MAX ∧ 11 ≤ TIME_MAX ∧ 12 ≤ TIME_MAX ∧ 6 ≤ RANDOM_MAX ∧
      10 ≤ 10 ∧ 10 ≤ 12 ∧ 12 ≠ 10) ∧
    ((10 < (generate_monotonic 10 4 10 12 6).1 ∨
      (10 = (generate_monotonic 10 4 10 12 6).1 ∧ 4 < (generate_monotonic 10 4 10 12 6).2)) ∧
    (generate_monotonic 10 4 10 12 6).2 ≤ RANDOM_MAX ∧
    (10 < (generate_monotonic 10 4 10 12 6).1 →
      pyStrLt (ulidChars 10 4)
        (ulidChars (generate_monotonic 10 4 10 12 6).1 (generate_monotonic 10 4 10 12 6).2) =
        true) ∧
    (10 = 10 ∧ 4 ≠ RANDOM_MAX → generate_monotonic 10 4 10 12 6 = (10, 4 + 1)) ∧
    (10 = 10 ∧ 4 = RANDOM_MAX → generate_monotonic 10 4 10 12 6 = (12, 6))) :=
  ⟨by decide,
    c2_monotonic_pair_increases 10 4 10 12 6 (by decide) (by decide) (by decide)
      (by decide) (by decide) (by decide) (by decide) (by decide)⟩

/-- C2 counterexample: a same-millisecond call with stored randomness `31`
increments it to `32` — strictly larger in pair order — yet the successor's
string (`…0100000000000000` after the timestamp block) sorts strictly
*before* its predecessor's (`…Z000000000000000`): the claimed string-order
monotonicity fails. -/
theorem c2_counterexample :
    generate_monotonic 0 31 0 5 6 = (0, 32) ∧
    pyStrLt (ulidChars (generate_monotonic 0 31 0 5 6).1
      (generate_monotonic 0 31 0 5 6).2) (ulidChars 0 31) = true ∧
    pyStrLt (ulidChars 0 31) (ulidChars (generate_monotonic 0 31 0 5 6).1
      (generate_monotonic 0 31 0 5 6).2) = false := by
  refine ⟨by decide, by decide, by decide⟩

/-! ## Boolean query parser (viper_logs/boolean_search.py)

`BooleanParser._parse_expression` walks an upper-cased token list with a
stack holding either the literal `True` (pushed by a `NOT` token) or a
`BooleanOperator` (pushed by `AND`/`OR`).  The embedding works on the token
list produced by `_tokenize`; `Except.error` models a raised `IndexError`
(`stack.pop()` on an empty stack) and `Except.ok none` models the function
returning Python `None`. -/

/-- Python `str.lower()` (ASCII), as a list map so it evaluates. -/
def pyLower (s : String) : String := ⟨s.data.map Char.toLower⟩

inductive BoolOp where
  | and : BoolOp
  | or : BoolOp
deriving DecidableEq

/-- An element of the parser's `stack`: the Python value `True` (from a
`NOT` token) or a `BooleanOperator`. -/
inductive StackItem where
  | neg : StackItem
  | op (o : BoolOp) : StackItem
deriving DecidableEq

/-- `BooleanTerm` / `BooleanExpression`.  The `operator` field holds
whatever `stack.pop()` returned, which can be the boolean `True` as well as
an operator; `right` is `Optional` in the dataclass. -/
inductive BExpr where
  | term (t : String) (negated : Bool) : BExpr
  | expr (left : BExpr) (operator : StackItem) (right : Option BExpr) : BExpr

/-- The closing-parenthesis scan of the `'('` branch: starting after the
opening parenthesis with nesting `level`, return the slice
`tokens[i+1 : j-1]` handed to the recursive parse and the remainder
`tokens[j:]`.  When the scan falls off the end of the list (unbalanced
input), Python's slice `[i+1 : j-1]` still drops the final token. -/
def scanParen : List String → Nat → List String × List String
  | [], _ => ([], [])
  | t :: rest, level =>
    let level' := if t = "(" then level + 1 else if t = ")" then level - 1 else level
    if level' = 0 then ([], rest)
    else match rest with
      | [] => ([], [])
      | _ :: _ => (t :: (scanParen rest level').1, (scanParen rest level').2)

theorem scanParen_le : ∀ (ts : List String) (level : Nat),
    (scanParen ts level).1.length ≤ ts.length ∧ (scanParen ts level).2.length ≤ ts.length := by
  intro ts
  induction ts with
  | nil => intro level; simp [scanParen]
  | cons t rest ih =>
    intro level
    simp only [scanParen]
    by_cases h0 : (if t = "(" then level + 1 else if t = ")" then level - 1 else level) = 0
    · simp only [h0, if_pos rfl]
      constructor <;> simp
    · simp only [if_neg h0]
      cases rest with
      | nil => simp
      | cons u us =>
        obtain ⟨h1, h2⟩ := ih (if t = "(" then level + 1 else if t = ")" then level - 1 else level)
        simp only [List.length_cons] at h1 h2 ⊢
        constructor <;> omega

/-- The main loop of `_parse_expression` over the remaining tokens, carrying
the operator stack and `current_expr`. -/
def parseLoop (stack : List StackItem) (cur : Option BExpr)
    (tokens : List String) : Except Unit (Option BExpr) :=
  match tokens with
  | [] => .ok cur
  | t :: rest =>
    if t = "(" then
      match parseLoop [] none (scanParen rest 1).1 with
      | .error e => .error e
      | .ok sub =>
        match cur with
        | none => parseLoop stack sub (scanParen rest 1).2
        | some l =>
          match stack with
          | [] => .error ()
          | it :: st => parseLoop st (some (.expr l it sub)) (scanParen rest 1).2
    else if t = "AND" then parseLoop (.op .and :: stack) cur rest
    else if t = "OR" then parseLoop (.op .or :: stack) cur rest
    else if t = "NOT" then parseLoop (.neg :: stack) cur rest
    else
      match stack with
      | .neg :: st =>
        match cur with
        | none => parseLoop st (some (.term (pyLower t) true)) rest
        | some l =>
          match st with
          | [] => .error ()
          | it :: st' => parseLoop st' (some (.expr l it (some (.term (pyLower t) true)))) rest
      | _ =>
        match cur with
        | none => parseLoop stack (some (.term (pyLower t) false)) rest
        | some l =>
          match stack with
          | [] => .error ()
          | it :: st' => parseLoop st' (some (.expr l it (some (.term (pyLower t) false)))) rest
termination_by tokens.length
decreasing_by
  all_goals simp only [List.length_cons]
  all_goals first
    | exact Nat.lt_succ_of_le (scanParen_le _ 1).1
    | exact Nat.lt_succ_of_le (scanParen_le _ 1).2
    | omega

/-- `BooleanParser._parse_expression` on an already-tokenized, upper-cased
query. -/
def parseExpression (tokens : List String) : Except Unit (Option BExpr) :=
  parseLoop [] none tokens

/-- A token that is neither a parenthesis nor an operator keyword. -/
def bareTerm (s : String) : Prop :=
  s ≠ "(" ∧ s ≠ ")" ∧ s ≠ "AND" ∧ s ≠ "OR" ∧ s ≠ "NOT"

instance (s : String) : Decidable (bareTerm s) := by
  unfold bareTerm; infer_instance

/-- The stack item pushed by an `AND`/`OR` token. -/
def opItem (s : String) : StackItem :=
  if s = "AND" then .op .and else .op .or

/-- C7: the parser is flat and left-associative.  `AND` and `OR` have equal
precedence: for any operators `o₁ o₂` the token sequence `a o₁ b o₂ c`
parses as `Expression(Expression(a, o₁, b), o₂, c)`; a `NOT` token negates
exactly the single immediately following bare term, and never a
parenthesized group. -/
theorem c7_parser_flat_left_assoc (a b c o₁ o₂ t u : String)
    (ha : bareTerm a) (hb : bareTerm b) (hc : bareTerm c)
    (ho₁ : o₁ = "AND" ∨ o₁ = "OR") (ho₂ : o₂ = "AND" ∨ o₂ = "OR")
    (ht : bareTerm t) (hu : bareTerm u) :
    parseExpression [a, o₁, b, o₂, c] =
      .ok (some (.expr
        (.expr (.term (pyLower a) false) (opItem o₁) (some (.term (pyLower b) false)))
        (opItem o₂) (some (.term (pyLower c) false)))) ∧
    parseExpression ["NOT", t] = .ok (some (.term (pyLower t) true)) ∧
    parseExpression ["NOT", "(", u, ")"] = .ok (some (.term (pyLower u) false)) := by
  obtain ⟨ha1, ha2, ha3, ha4, ha5⟩ := ha
  obtain ⟨hb1, hb2, hb3, hb4, hb5⟩ := hb
  obtain ⟨hc1, hc2, hc3, hc4, hc5⟩ := hc
  obtain ⟨ht1, ht2, ht3, ht4, ht5⟩ := ht
  obtain ⟨hu1, hu2, hu3, hu4, hu5⟩ := hu
  refine ⟨?_, ?_, ?_⟩
  · rcases ho₁ with rfl | rfl <;> rcases ho₂ with rfl | rfl <;>
      simp [parseExpression, parseLoop, opItem, ha1, ha2, ha3, ha4, ha5,
        hb1, hb2, hb3, hb4, hb5, hc1, hc2, hc3, hc4, hc5]
  · simp [parseExpression, parseLoop, ht1, ht2, ht3, ht4, ht5]
  · simp [parseExpression, parseLoop, scanParen, hu1, hu2, hu3, hu4, hu5]

theorem c7_parser_flat_left_assoc_witness :
    (bareTerm "FOO" ∧ bareTerm "BAR" ∧ bareTerm "BAZ" ∧ bareTerm "QUX" ∧ bareTerm "ZAP" ∧
      ("AND" = "AND" ∨ ("AND" : String) = "OR") ∧ (("OR" : String) = "AND" ∨ "OR" = "OR")) ∧
    (parseExpression ["FOO", "AND", "BAR", "OR", "BAZ"] =
      .ok (some (.expr
        (.expr (.term (pyLower "FOO") false) (opItem "AND") (some (.term (pyLower "BAR") false)))
        (opItem "OR") (some (.term (pyLower "BAZ") false)))) ∧
    parseExpression ["NOT", "QUX"] = .ok (some (.term (pyLower "QUX") true)) ∧
    parseExpression ["NOT", "(", "ZAP", ")"] = .ok (some (.term (pyLower "ZAP") false))) :=
  ⟨by refine ⟨by decide, by decide, by decide, by decide, by decide, Or.inl rfl, Or.inr rfl⟩,
    c7_parser_flat_left_assoc "FOO" "BAR" "BAZ" "AND" "OR" "QUX" "ZAP"
      (by decide) (by decide) (by decide) (Or.inl rfl) (Or.inr rfl) (by decide) (by decide)⟩

/-! ## Inverted index (viper_logs/indexer.py) -/

/-- The fixed stop-word set of `TextIndexer`. -/
def stop_words : List String :=
  ["le", "la", "les", "de", "du", "des", "un", "une", "et", "est"]

/-- A word character of the regex `\w` (ASCII range). -/
def isWordChar (c : Char) : Bool := c.isAlphanum || c = '_'

/-- Maximal runs of word characters, i.e. `re.findall(r'\b\w+\b', ...)`.
`cur` is the run being accumulated, in reverse. -/
def tokenizeAux : List Char → List Char → List String
  | cur, [] => if cur.isEmpty then [] else [String.mk cur.reverse]
  | cur, ch :: rest =>
    if isWordChar ch then tokenizeAux (ch :: cur) rest
    else if cur.isEmpty then tokenizeAux [] rest
    else String.mk cur.reverse :: tokenizeAux [] rest

/-- `TextIndexer._tokenize`: lower-case, split into word runs, drop stop
words. -/
def pyTokenize (text : String) : List String :=
  (tokenizeAux [] (text.data.map Char.toLower)).filter
    (fun w => !(stop_words.contains w))

/-- `IndexEntry` (term frequency as an exact rational). -/
structure IndexEntry where
  doc_id : String
  positions : List Nat
  field : String
  tf : Rat
deriving DecidableEq

/-- `TextIndexer` state. -/
structure Indexer where
  index : List (String × List (String × IndexEntry))
  documents : List (String × List (String × String))
  doc_count : Nat

def emptyIndexer : Indexer := ⟨[], [], 0⟩

/-- `TextIndexer._calculate_tf`. -/
def calculate_tf (term_count doc_length : Nat) : Rat :=
  if doc_length > 0 then (term_count : Rat) / (doc_length : Rat) else 0

/-- The per-field position map: `term_positions[term].append(pos)` over
`enumerate(tokens)`. -/
def termPositions (tokens : List String) : List (String × List Nat) :=
  tokens.enum.foldl
    (fun acc p => dinsert p.2 ((dlookup p.2 acc).getD [] ++ [p.1]) acc) []

/-- Indexing one field of `add_document`: store one entry per term under
`index[term][doc_id]` (overwriting any entry a previous field stored for the
same term and document). -/
def addField (doc_id field : String) (idx : List (String × List (String × IndexEntry)))
    (text : String) : List (String × List (String × IndexEntry)) :=
  let tokens := pyTokenize text
  let doc_length := tokens.length
  (termPositions tokens).foldl
    (fun idx tp =>
      dinsert tp.1
        (dinsert doc_id
          ⟨doc_id, tp.2, field, calculate_tf tp.2.length doc_length⟩
          ((dlookup tp.1 idx).getD []))
        idx)
    idx

/-- `TextIndexer.add_document`. -/
def add_document (st : Indexer) (doc_id : String) (content : List (String × String)) :
    Indexer :=
  { index := content.foldl (fun idx fv => addField doc_id fv.1 idx fv.2) st.index,
    documents := dinsert doc_id content st.documents,
    doc_count := st.doc_count + 1 }

/-- `TextIndexer.remove_document`: drop the document's posting from every
term, delete term keys whose posting map became empty. -/
def remove_document (st : Indexer) (doc_id : String) : Indexer :=
  if (dlookup doc_id st.documents).isSome then
    { index := (st.index.map (fun tp => (tp.1, derase doc_id tp.2))).filter
        (fun tp => !tp.2.isEmpty),
      documents := derase doc_id st.documents,
      doc_count := st.doc_count - 1 }
  else st

/-- A call history against one `TextIndexer`. -/
inductive IdxOp where
  | add (doc_id : String) (content : List (String × String)) : IdxOp
  | remove (doc_id : String) : IdxOp

def applyIdxOp (st : Indexer) : IdxOp → Indexer
  | .add d c => add_document st d c
  | .remove d => remove_document st d

def applyIdxOps (ops : List IdxOp) : Indexer := ops.foldl applyIdxOp emptyIndexer

/-! ### Association-list support lemmas -/

theorem dlookup_mem {α β : Type} [DecidableEq α] {k : α} {v : β} {l : List (α × β)}
    (h : dlookup k l = some v) : (k, v) ∈ l := by
  induction l with
  | nil => simp at h
  | cons p rest ih =>
    obtain ⟨k', v'⟩ := p
    by_cases h' : k' = k
    · subst h'
      simp at h
      subst h
      exact List.mem_cons_self _ _
    · simp [h'] at h
      exact List.mem_cons_of_mem _ (ih h)

theorem dlookup_eq_none_of_keys {α β : Type} [DecidableEq α] {k : α} {l : List (α × β)}
    (h : ∀ p ∈ l, p.1 ≠ k) : dlookup k l = none := by
  induction l with
  | nil => rfl
  | cons p rest ih =>
    obtain ⟨k', v'⟩ := p
    have hk : k' ≠ k := h (k', v') (List.mem_cons_self _ _)
    simp only [dlookup_cons, if_neg hk]
    exact ih fun q hq => h q (List.mem_cons_of_mem _ hq)

theorem dlookup_isSome_of_mem {α β : Type} [DecidableEq α] {k : α} {v : β} {l : List (α × β)}
    (h : (k, v) ∈ l) : (dlookup k l).isSome := by
  induction l with
  | nil => simp at h
  | cons p rest ih =>
    obtain ⟨k', v'⟩ := p
    rcases List.mem_cons.mp h with heq | hmem
    · injection heq with h1 h2
      subst h1
      simp
    · by_cases h' : k' = k <;> simp [h', ih hmem]

/-- Keys with no duplicates: the defining invariant of a Python dict. -/
def NodupKeys {β : Type} (l : List (String × β)) : Prop := (l.map Prod.fst).Nodup

theorem nodup_mem_eq {β : Type} {k : String} {v v' : β} {l : List (String × β)}
    (hn : NodupKeys l) (h1 : (k, v) ∈ l) (h2 : (k, v') ∈ l) : v = v' := by
  induction l with
  | nil => simp at h1
  | cons p rest ih =>
    obtain ⟨k', w⟩ := p
    have hn' : NodupKeys rest := by
      simpa [NodupKeys] using (List.nodup_cons.mp hn).2
    have hk' : k' ∉ rest.map Prod.fst := by
      simpa [NodupKeys] using (List.nodup_cons.mp hn).1
    rcases List.mem_cons.mp h1 with he1 | hm1 <;> rcases List.mem_cons.mp h2 with he2 | hm2
    · injection he1 with a1 b1
      injection he2 with a2 b2
      subst b1
      subst b2
      rfl
    · injection he1 with a1 b1
      subst a1
      exact absurd (List.mem_map_of_mem Prod.fst hm2) hk'
    · injection he2 with a2 b2
      subst a2
      exact absurd (List.mem_map_of_mem Prod.fst hm1) hk'
    · exact ih hn' hm1 hm2

theorem mem_dinsert {α β : Type} [DecidableEq α] {p : α × β} {k : α} {v : β}
    {l : List (α × β)} (h : p ∈ dinsert k v l) : p = (k, v) ∨ p ∈ l := by
  induction l with
  | nil => simpa [dinsert] using h
  | cons q rest ih =>
    obtain ⟨k', v'⟩ := q
    by_cases h' : k' = k
    · simp only [dinsert, if_pos h'] at h
      rcases List.mem_cons.mp h with he | hm
      · exact Or.inl he
      · exact Or.inr (List.mem_cons_of_mem _ hm)
    · simp only [dinsert, if_neg h'] at h
      rcases List.mem_cons.mp h with he | hm
      · exact Or.inr (he ▸ List.mem_cons_self _ _)
      · rcases ih hm with h1 | h2
        · exact Or.inl h1
        · exact Or.inr (List.mem_cons_of_mem _ h2)

theorem keys_dinsert {β : Type} {x k : String} {v : β} {l : List (String × β)} :
    x ∈ (dinsert k v l).map Prod.fst ↔ x = k ∨ x ∈ l.map Prod.fst := by
  induction l with
  | nil => simp [dinsert, eq_comm]
  | cons q rest ih =>
    obtain ⟨k', v'⟩ := q
    by_cases h' : k' = k
    · subst h'
      simp [dinsert, eq_comm]
    · simp only [dinsert, if_neg h', List.map_cons, List.mem_cons, ih]
      tauto

theorem nodup_dinsert {β : Type} {k : String} {v : β} {l : List (String × β)}
    (hn : NodupKeys l) : NodupKeys (dinsert k v l) := by
  induction l with
  | nil => simp [dinsert, NodupKeys]
  | cons q rest ih =>
    obtain ⟨k', v'⟩ := q
    have hn2 : (k' :: rest.map Prod.fst).Nodup := by
      simpa only [NodupKeys, List.map_cons] using hn
    have hk' : k' ∉ rest.map Prod.fst := (List.nodup_cons.mp hn2).1
    have hn' : NodupKeys rest := (List.nodup_cons.mp hn2).2
    by_cases h' : k' = k
    · subst h'
      simp only [dinsert, if_pos rfl]
      unfold NodupKeys
      exact List.nodup_cons.mpr ⟨hk', hn'⟩
    · simp only [dinsert, if_neg h']
      refine List.nodup_cons.mpr ⟨?_, ih hn'⟩
      intro hmem
      rcases keys_dinsert.mp hmem with h1 | h2
      · exact h' h1
      · exact hk' h2

theorem derase_sublist {α β : Type} [DecidableEq α] (k : α) (l : List (α × β)) :
    (derase k l).Sublist l := by
  induction l with
  | nil => simp [derase]
  | cons p rest ih =>
    obtain ⟨k', v'⟩ := p
    by_cases h : k' = k
    · simp only [derase, if_pos h]
      exact ih.cons _
    · simp only [derase, if_neg h]
      exact ih.cons₂ _

theorem nodup_derase {β : Type} {k : String} {l : List (String × β)}
    (hn : NodupKeys l) : NodupKeys (derase k l) := by
  exact List.Nodup.sublist (List.Sublist.map Prod.fst (derase_sublist k l)) hn

theorem mem_derase {α β : Type} [DecidableEq α] {p : α × β} {k : α} {l : List (α × β)}
    (h : p ∈ derase k l) : p ∈ l :=
  (derase_sublist k l).mem h

theorem length_dinsert {α β : Type} [DecidableEq α] (k : α) (v : β) (l : List (α × β)) :
    (dinsert k v l).length ≤ l.length + 1 := by
  induction l with
  | nil => simp [dinsert]
  | cons q rest ih =>
    obtain ⟨k', v'⟩ := q
    by_cases h : k' = k <;> simp [dinsert, h] <;> omega

theorem length_derase_of_isSome {α β : Type} [DecidableEq α] {k : α} {l : List (α × β)}
    (h : (dlookup k l).isSome) : (derase k l).length + 1 ≤ l.length := by
  induction l with
  | nil => simp at h
  | cons q rest ih =>
    obtain ⟨k', v'⟩ := q
    by_cases h' : k' = k
    · simp only [derase, if_pos h', List.length_cons]
      have := (derase_sublist k rest).length_le
      omega
    · simp only [dlookup_cons, if_neg h'] at h
      simp only [derase, if_neg h', List.length_cons]
      have := ih h
      omega

theorem foldl_preserve {α σ : Type} (P : σ → Prop) (f : σ → α → σ)
    (h : ∀ s a, P s → P (f s a)) : ∀ (l : List α) (s : σ), P s → P (l.foldl f s) := by
  intro l
  induction l with
  | nil => intro s hs; exact hs
  | cons a as ih => intro s hs; exact ih (f s a) (h s a hs)

theorem dinsert_ne_nil {α β : Type} [DecidableEq α] (k : α) (v : β) (l : List (α × β)) :
    dinsert k v l ≠ [] := by
  cases l with
  | nil => simp [dinsert]
  | cons q rest =>
    obtain ⟨k', v'⟩ := q
    by_cases h : k' = k <;> simp [dinsert, h]

theorem mem_derase_ne {α β : Type} [DecidableEq α] {p : α × β} {k : α} {l : List (α × β)}
    (h : p ∈ derase k l) : p.1 ≠ k := by
  induction l with
  | nil => simp [derase] at h
  | cons q rest ih =>
    obtain ⟨k', v'⟩ := q
    by_cases h' : k' = k
    · simp only [derase, if_pos h'] at h
      exact ih h
    · simp only [derase, if_neg h'] at h
      rcases List.mem_cons.mp h with he | hm
      · subst he
        exact h'
      · exact ih hm

/-! ### Reachable-state invariant of the indexer -/

/-- Well-formedness of the inverted index relative to the document store:
dict keys are unique, every term has a non-empty posting map, every posting
references a stored document, and term frequencies are non-negative. -/
def IndexOk (docs : List (String × List (String × String)))
    (idx : List (String × List (String × IndexEntry))) : Prop :=
  NodupKeys idx ∧ ∀ p ∈ idx, NodupKeys p.2 ∧ p.2 ≠ [] ∧
    ∀ q ∈ p.2, (dlookup q.1 docs).isSome = true ∧ 0 ≤ q.2.tf

/-- Invariant of every reachable `TextIndexer` state. -/
def IdxInv (st : Indexer) : Prop :=
  IndexOk st.documents st.index ∧ NodupKeys st.documents ∧
    st.documents.length ≤ st.doc_count

theorem IndexOk_mono_docs {docs docs' idx}
    (hmono : ∀ d, (dlookup d docs).isSome = true → (dlookup d docs').isSome = true)
    (h : IndexOk docs idx) : IndexOk docs' idx := by
  obtain ⟨h1, h2⟩ := h
  refine ⟨h1, fun p hp => ?_⟩
  obtain ⟨hA, hB, hC⟩ := h2 p hp
  exact ⟨hA, hB, fun q hq => ⟨hmono q.1 (hC q hq).1, (hC q hq).2⟩⟩

theorem calculate_tf_nonneg (tc dl : Nat) : 0 ≤ calculate_tf tc dl := by
  unfold calculate_tf
  by_cases h : dl > 0
  · simp only [if_pos h]
    positivity
  · simp [if_neg h]

theorem addField_ok {docs : List (String × List (String × String))}
    {idx : List (String × List (String × IndexEntry))} (doc_id field : String)
    (text : String) (hdoc : (dlookup doc_id docs).isSome = true)
    (h : IndexOk docs idx) : IndexOk docs (addField doc_id field idx text) := by
  unfold addField
  apply foldl_preserve (IndexOk docs) _ _ _ idx h
  intro idx' tp hok
  obtain ⟨h1, h2⟩ := hok
  constructor
  · exact nodup_dinsert h1
  · intro p hp
    rcases mem_dinsert hp with rfl | hmem
    · have hpm' : NodupKeys ((dlookup tp.1 idx').getD []) := by
        cases hl : dlookup tp.1 idx' with
        | none => simp [NodupKeys]
        | some pm => exact (h2 _ (dlookup_mem hl)).1
      refine ⟨nodup_dinsert hpm', dinsert_ne_nil _ _ _, ?_⟩
      intro q hq
      rcases mem_dinsert hq with rfl | hq'
      · exact ⟨hdoc, calculate_tf_nonneg _ _⟩
      · cases hl : dlookup tp.1 idx' with
        | none => rw [hl] at hq'; simp at hq'
        | some pm =>
          rw [hl] at hq'
          exact (h2 _ (dlookup_mem hl)).2.2 q hq'
    · exact h2 p hmem

theorem add_document_inv {st : Indexer} (doc_id : String)
    (content : List (String × String)) (h : IdxInv st) :
    IdxInv (add_document st doc_id content) := by
  obtain ⟨hidx, hdn, hcount⟩ := h
  have hmono : ∀ d, (dlookup d st.documents).isSome = true →
      (dlookup d (dinsert doc_id content st.documents)).isSome = true := by
    intro d hd
    by_cases hdd : doc_id = d
    · subst hdd
      rw [dlookup_dinsert]
      rfl
    · rw [dlookup_dinsert_ne _ _ _ _ hdd]
      exact hd
  refine ⟨?_, ?_, ?_⟩
  · show IndexOk (dinsert doc_id content st.documents)
      (content.foldl (fun idx fv => addField doc_id fv.1 idx fv.2) st.index)
    apply foldl_preserve (IndexOk (dinsert doc_id content st.documents)) _ _ _ st.index
      (IndexOk_mono_docs hmono hidx)
    intro idx fv hok
    apply addField_ok _ _ _ _ hok
    rw [dlookup_dinsert]
    rfl
  · exact nodup_dinsert hdn
  · show (dinsert doc_id content st.documents).length ≤ st.doc_count + 1
    have := length_dinsert doc_id content st.documents
    omega

theorem remove_document_inv {st : Indexer} (doc_id : String) (h : IdxInv st) :
    IdxInv (remove_document st doc_id) := by
  obtain ⟨⟨hn, hpm⟩, hdn, hcount⟩ := h
  unfold remove_document
  by_cases hs : (dlookup doc_id st.documents).isSome = true
  · rw [if_pos hs]
    refine ⟨⟨?_, ?_⟩, ?_, ?_⟩
    · have hkeys : ((st.index.map (fun tp => (tp.1, derase doc_id tp.2))).map Prod.fst) =
          st.index.map Prod.fst := by
        simp [List.map_map, Function.comp]
      have hnodup2 : NodupKeys (st.index.map (fun tp => (tp.1, derase doc_id tp.2))) := by
        unfold NodupKeys
        rw [hkeys]
        exact hn
      exact List.Nodup.sublist
        (List.Sublist.map Prod.fst (List.filter_sublist _)) hnodup2
    · intro p hp
      have hp1 := List.mem_of_mem_filter hp
      have hpred := List.of_mem_filter hp
      obtain ⟨q, hq, hqe⟩ := List.mem_map.mp hp1
      obtain ⟨hA, hB, hC⟩ := hpm q hq
      refine ⟨?_, ?_, ?_⟩
      · rw [← hqe]
        exact nodup_derase hA
      · intro hnil
        rw [hnil] at hpred
        simp at hpred
      · intro r hr
        rw [← hqe] at hr
        have hrq : r ∈ q.2 := mem_derase hr
        have hrne : r.1 ≠ doc_id := mem_derase_ne hr
        constructor
        · rw [dlookup_derase_ne _ _ _ (fun he => hrne he.symm)]
          exact (hC r hrq).1
        · exact (hC r hrq).2
    · exact nodup_derase hdn
    · show (derase doc_id st.documents).length ≤ st.doc_count - 1
      have h1 := length_derase_of_isSome hs
      omega
  · rw [if_neg hs]
    exact ⟨⟨hn, hpm⟩, hdn, hcount⟩

theorem idxInv_reachable (ops : List IdxOp) : IdxInv (applyIdxOps ops) := by
  unfold applyIdxOps
  apply foldl_preserve IdxInv applyIdxOp
  · intro st op h
    cases op with
    | add d c => exact add_document_inv d c h
    | remove d => exact remove_document_inv d h
  · refine ⟨⟨?_, ?_⟩, ?_, ?_⟩ <;> simp [emptyIndexer, NodupKeys]

/-- C4: After any sequence of `add_document` / `remove_document` calls, a
term key exists in the inverted index iff it maps to at least one posting;
after `remove_document id` no posting anywhere references `id`, and every
term whose postings all referenced only `id` has its key deleted. -/
theorem c4_term_key_iff_postings (ops : List IdxOp) (id : String) :
    (∀ t pm, dlookup t (applyIdxOps ops).index = some pm → pm ≠ []) ∧
    (∀ t pm, dlookup t (remove_document (applyIdxOps ops) id).index = some pm →
      dlookup id pm = none) ∧
    (∀ t pm, dlookup t (applyIdxOps ops).index = some pm → (∀ q ∈ pm, q.1 = id) →
      dlookup t (remove_document (applyIdxOps ops) id).index = none) := by
  obtain ⟨⟨hn, hpm⟩, hdn, hcount⟩ := idxInv_reachable ops
  refine ⟨?_, ?_, ?_⟩
  · intro t pm hl
    exact (hpm _ (dlookup_mem hl)).2.1
  · intro t pm hl
    unfold remove_document at hl
    by_cases hs : (dlookup id (applyIdxOps ops).documents).isSome = true
    · rw [if_pos hs] at hl
      have hmem := dlookup_mem hl
      have hmem2 := List.mem_of_mem_filter hmem
      obtain ⟨q, hq, hqe⟩ := List.mem_map.mp hmem2
      have hpm2 : pm = derase id q.2 := by
        injection hqe with h1 h2
        exact h2.symm
      rw [hpm2]
      exact dlookup_derase id q.2
    · rw [if_neg hs] at hl
      cases hv : dlookup id pm with
      | none => rfl
      | some e =>
        have hmem := dlookup_mem hv
        have hdoc := ((hpm _ (dlookup_mem hl)).2.2 _ hmem).1
        exact absurd hdoc hs
  · intro t pm hl hall
    unfold remove_document
    by_cases hs : (dlookup id (applyIdxOps ops).documents).isSome = true
    · rw [if_pos hs]
      apply dlookup_eq_none_of_keys
      intro p hp
      have hp1 := List.mem_of_mem_filter hp
      have hpred := List.of_mem_filter hp
      obtain ⟨⟨qt, qpm⟩, hq, hqe⟩ := List.mem_map.mp hp1
      intro hpt
      have hqt : qt = t := by
        have h := congrArg Prod.fst hqe
        simpa [hpt] using h
      subst hqt
      have hqpm : qpm = pm := nodup_mem_eq hn hq (dlookup_mem hl)
      have hall' : ∀ r ∈ qpm, r.1 = id := by
        rw [hqpm]
        exact hall
      have hdnil : derase id qpm = [] := derase_eq_nil id qpm hall'
      rw [← hqe] at hpred
      simp [hdnil] at hpred
    · rw [if_neg hs]
      exfalso
      have hne := (hpm _ (dlookup_mem hl)).2.1
      cases pm with
      | nil => exact hne rfl
      | cons q rest =>
        have hmem : q ∈ q :: rest := List.mem_cons_self _ _
        have hq1 : q.1 = id := hall q hmem
        have hdoc := ((hpm _ (dlookup_mem hl)).2.2 q hmem).1
        rw [hq1] at hdoc
        exact hs hdoc

/-! ### Effect of `add_document` on the stored postings (C6) -/

/-- Spec-side: positions of a term in a token list (0-based). -/
def positionsOf (term : String) (tokens : List String) : List Nat :=
  (tokens.enum.filter (fun p => p.2 = term)).map Prod.fst

/-- Spec-side: the last field of the field map whose tokenization contains
the term, together with the term's positions and the field's token count. -/
def lastFieldOcc (content : List (String × String)) (term : String) :
    Option (String × List Nat × Nat) :=
  content.foldl
    (fun acc fv =>
      let toks := pyTokenize fv.2
      let ps := positionsOf term toks
      if ps.isEmpty then acc else some (fv.1, ps, toks.length))
    none

theorem positionsOf_pairwise (term : String) (tokens : List String) :
    (positionsOf term tokens).Pairwise (· < ·) := by
  unfold positionsOf
  have hsub : ((tokens.enum.filter (fun p => p.2 = term)).map Prod.fst).Sublist
      (tokens.enum.map Prod.fst) :=
    List.Sublist.map Prod.fst (List.filter_sublist _)
  rw [List.enum_map_fst] at hsub
  exact List.Pairwise.sublist hsub (List.pairwise_lt_range _)

/-- The accumulation `term_positions[term].append(pos)` over an arbitrary
position/term list. -/
theorem tp_fold_lookup (ps : List (Nat × String)) :
    ∀ (acc : List (String × List Nat)) (term : String),
      dlookup term (ps.foldl
          (fun acc p => dinsert p.2 ((dlookup p.2 acc).getD [] ++ [p.1]) acc) acc) =
        (if ((ps.filter (fun p => p.2 = term)).map Prod.fst) = [] then dlookup term acc
         else some ((dlookup term acc).getD [] ++
            (ps.filter (fun p => p.2 = term)).map Prod.fst)) := by
  induction ps with
  | nil => intro acc term; simp
  | cons p rest ih =>
    intro acc term
    obtain ⟨pos, ptm⟩ := p
    by_cases hpt : ptm = term
    · subst hpt
      simp only [List.foldl_cons, List.filter_cons]
      rw [ih]
      rw [dlookup_dinsert]
      simp
    · simp only [List.foldl_cons, List.filter_cons]
      have hne : (decide ((pos, ptm).2 = term)) = false := by
        simp [hpt]
      rw [hne]
      simp only [Bool.false_eq_true, if_false]
      rw [ih]
      rw [dlookup_dinsert_ne _ _ _ _ hpt]

theorem termPositions_lookup (tokens : List String) (term : String) :
    dlookup term (termPositions tokens) =
      (if positionsOf term tokens = [] then none else some (positionsOf term tokens)) := by
  unfold termPositions positionsOf
  rw [tp_fold_lookup tokens.enum [] term]
  simp

theorem termPositions_nodup (tokens : List String) : NodupKeys (termPositions tokens) := by
  unfold termPositions
  exact foldl_preserve NodupKeys _ (fun s a h => nodup_dinsert h) tokens.enum []
    (by simp [NodupKeys])

/-- Effect of indexing one field on the binding of one term. -/
theorem addField_lookup (doc_id field text : String)
    (idx : List (String × List (String × IndexEntry))) (term : String) :
    dlookup term (addField doc_id field idx text) =
      (match dlookup term (termPositions (pyTokenize text)) with
       | none => dlookup term idx
       | some ps => some (dinsert doc_id
          ⟨doc_id, ps, field, calculate_tf ps.length (pyTokenize text).length⟩
          ((dlookup term idx).getD []))) := by
  unfold addField
  have hgen : ∀ (tps : List (String × List Nat)), NodupKeys tps →
      ∀ (idx : List (String × List (String × IndexEntry))),
      dlookup term (tps.foldl
        (fun idx tp => dinsert tp.1
          (dinsert doc_id
            ⟨doc_id, tp.2, field, calculate_tf tp.2.length (pyTokenize text).length⟩
            ((dlookup tp.1 idx).getD [])) idx) idx) =
        (match dlookup term tps with
         | none => dlookup term idx
         | some ps => some (dinsert doc_id
            ⟨doc_id, ps, field, calculate_tf ps.length (pyTokenize text).length⟩
            ((dlookup term idx).getD []))) := by
    intro tps
    induction tps with
    | nil => intro _ idx; simp
    | cons tp rest ih =>
      intro hnd idx
      obtain ⟨t0, ps0⟩ := tp
      have hn2 : (t0 :: rest.map Prod.fst).Nodup := by
        simpa only [NodupKeys, List.map_cons] using hnd
      have ht0 : t0 ∉ rest.map Prod.fst := (List.nodup_cons.mp hn2).1
      have hrest : NodupKeys rest := (List.nodup_cons.mp hn2).2
      simp only [List.foldl_cons]
      rw [ih hrest]
      by_cases he : t0 = term
      · subst he
        have hnone : dlookup t0 rest = none := by
          apply dlookup_eq_none_of_keys
          intro p hp hcontra
          exact ht0 (hcontra ▸ List.mem_map_of_mem Prod.fst hp)
        rw [hnone]
        have hhead : dlookup t0 ((t0, ps0) :: rest) = some ps0 := by simp
        rw [hhead, dlookup_dinsert]
      · simp only [dlookup_cons, if_neg he]
        cases hr : dlookup term rest with
        | none =>
          simp only []
          rw [dlookup_dinsert_ne _ _ _ _ he]
        | some ps =>
          simp only []
          rw [dlookup_dinsert_ne _ _ _ _ he]
  exact hgen (termPositions (pyTokenize text)) (termPositions_nodup _) idx

theorem lastFieldOcc_shape (content : List (String × String)) (term : String) :
    ∀ f ps dl, lastFieldOcc content term = some (f, ps, dl) →
      ps ≠ [] ∧ ps.Pairwise (· < ·) := by
  unfold lastFieldOcc
  apply foldl_preserve
    (fun acc => ∀ f ps dl, acc = some (f, ps, dl) → ps ≠ [] ∧ ps.Pairwise (· < ·))
  · intro acc fv h
    by_cases hps : (positionsOf term (pyTokenize fv.2)).isEmpty = true
    · simpa only [hps, if_pos rfl] using h
    · simp only [hps, Bool.false_eq_true, if_false]
      intro f ps dl he
      rw [Option.some.injEq, Prod.mk.injEq, Prod.mk.injEq] at he
      obtain ⟨hf, hps2, hdl⟩ := he
      subst hps2
      exact ⟨fun hnil => hps (by rw [hnil]; rfl), positionsOf_pairwise _ _⟩
  · intro f ps dl h
    exact absurd h (by simp)

/-- Effect of a whole `add_document` call on one `(term, doc_id)` binding. -/
theorem add_document_term_doc (st : Indexer) (doc_id : String)
    (content : List (String × String)) (term : String) :
    (dlookup term (add_document st doc_id content).index).bind (dlookup doc_id) =
      (match lastFieldOcc content term with
       | none => (dlookup term st.index).bind (dlookup doc_id)
       | some fo => some ⟨doc_id, fo.2.1, fo.1, calculate_tf fo.2.1.length fo.2.2⟩) := by
  show (dlookup term (content.foldl (fun idx fv => addField doc_id fv.1 idx fv.2)
      st.index)).bind (dlookup doc_id) = _
  unfold lastFieldOcc
  have hgen : ∀ (cs : List (String × String)) (idx : List (String × List (String × IndexEntry)))
      (acc : Option (String × List Nat × Nat)),
      ((dlookup term idx).bind (dlookup doc_id) =
        (match acc with
         | none => (dlookup term st.index).bind (dlookup doc_id)
         | some fo => some ⟨doc_id, fo.2.1, fo.1, calculate_tf fo.2.1.length fo.2.2⟩)) →
      ((dlookup term (cs.foldl (fun idx fv => addField doc_id fv.1 idx fv.2) idx)).bind
          (dlookup doc_id) =
        (match cs.foldl
            (fun acc fv =>
              let toks := pyTokenize fv.2
              let ps := positionsOf term toks
              if ps.isEmpty then acc else some (fv.1, ps, toks.length)) acc with
         | none => (dlookup term st.index).bind (dlookup doc_id)
         | some fo => some ⟨doc_id, fo.2.1, fo.1, calculate_tf fo.2.1.length fo.2.2⟩)) := by
    intro cs
    induction cs with
    | nil => intro idx acc h; exact h
    | cons fv rest ih =>
      intro idx acc h
      simp only [List.foldl_cons]
      apply ih
      rw [addField_lookup, termPositions_lookup]
      by_cases hps : positionsOf term (pyTokenize fv.2) = []
      · rw [if_pos hps]
        have : (positionsOf term (pyTokenize fv.2)).isEmpty = true := by
          rw [hps]; rfl
        simp only [this, if_pos rfl]
        exact h
      · rw [if_neg hps]
        have : (positionsOf term (pyTokenize fv.2)).isEmpty = false := by
          cases hc : positionsOf term (pyTokenize fv.2) with
          | nil => exact absurd hc hps
          | cons a l => rfl
        simp only [this, Bool.false_eq_true, if_false]
        simp only [Option.some_bind]
        rw [dlookup_dinsert]
  exact hgen content st.index none rfl

theorem addField_other_doc (doc_id field text : String)
    (idx : List (String × List (String × IndexEntry))) (term d : String)
    (hd : d ≠ doc_id) :
    (dlookup term (addField doc_id field idx text)).bind (dlookup d) =
      (dlookup term idx).bind (dlookup d) := by
  rw [addField_lookup]
  cases ht : dlookup term (termPositions (pyTokenize text)) with
  | none => rfl
  | some ps =>
    simp only [Option.some_bind]
    rw [dlookup_dinsert_ne _ _ _ _ (fun he => hd he.symm)]
    cases hi : dlookup term idx with
    | none => simp
    | some pm => simp

/-- C6 (amended): `add_document(id, fields)` stores, for each term occurring
in the document and a document id with no pre-existing postings, exactly one
posting keyed by `(term, id)` — not one per `(term, field, id)`.  The stored
posting comes from the last field (in field-map order) whose tokenization
contains the term: its position list is that field's sorted non-empty
0-based position list and its term frequency is
`occurrences / field_token_count` of that field; a later field silently
overwrites the posting a previous field stored for the same term.  Postings
of other documents are untouched. -/
theorem c6_one_posting_per_term_and_doc (st : Indexer) (doc_id : String)
    (content : List (String × String)) (term : String)
    (hfresh : ∀ t pm, dlookup t st.index = some pm → dlookup doc_id pm = none) :
    ((dlookup term (add_document st doc_id content).index).bind (dlookup doc_id) =
      (lastFieldOcc content term).map (fun fo =>
        ⟨doc_id, fo.2.1, fo.1, calculate_tf fo.2.1.length fo.2.2⟩)) ∧
    (∀ f ps dl, lastFieldOcc content term = some (f, ps, dl) →
      ps ≠ [] ∧ ps.Pairwise (· < ·)) ∧
    (∀ d, d ≠ doc_id →
      (dlookup term (add_document st doc_id content).index).bind (dlookup d) =
        (dlookup term st.index).bind (dlookup d)) := by
  have hbase : (dlookup term st.index).bind (dlookup doc_id) = none := by
    cases hl : dlookup term st.index with
    | none => rfl
    | some pm =>
      simp only [Option.some_bind]
      exact hfresh term pm hl
  refine ⟨?_, lastFieldOcc_shape content term, ?_⟩
  · rw [add_document_term_doc]
    cases lastFieldOcc content term with
    | none => exact hbase
    | some fo => rfl
  · intro d hd
    show (dlookup term (content.foldl (fun idx fv => addField doc_id fv.1 idx fv.2)
        st.index)).bind (dlookup d) = _
    apply foldl_preserve
      (fun idx => (dlookup term idx).bind (dlookup d) =
        (dlookup term st.index).bind (dlookup d))
    · intro idx fv h
      rw [addField_other_doc _ _ _ _ _ _ hd]
      exact h
    · rfl

theorem c6_one_posting_witness :
    (∀ t pm, dlookup t emptyIndexer.index = some pm → dlookup "d1" pm = none) ∧
    (((dlookup "alpha" (add_document emptyIndexer "d1"
        [("f", "alpha beta")]).index).bind (dlookup "d1") =
      (lastFieldOcc [("f", "alpha beta")] "alpha").map (fun fo =>
        ⟨"d1", fo.2.1, fo.1, calculate_tf fo.2.1.length fo.2.2⟩)) ∧
    (∀ f ps dl, lastFieldOcc [("f", "alpha beta")] "alpha" = some (f, ps, dl) →
      ps ≠ [] ∧ ps.Pairwise (· < ·)) ∧
    (∀ d, d ≠ "d1" →
      (dlookup "alpha" (add_document emptyIndexer "d1"
          [("f", "alpha beta")]).index).bind (dlookup d) =
        (dlookup "alpha" emptyIndexer.index).bind (dlookup d))) :=
  ⟨fun t pm h => by simp [emptyIndexer] at h,
    c6_one_posting_per_term_and_doc emptyIndexer "d1" [("f", "alpha beta")] "alpha"
      (fun t pm h => by simp [emptyIndexer] at h)⟩

/-- C6 counterexample: adding one document whose two fields `"a"` and `"b"`
both contain the term `"x"` leaves a single posting for `("x", "d")`, whose
field is `"b"`; no posting with field `"a"` survives, refuting "one posting
per `(term, field, id)`, postings from different fields all retained". -/
theorem c6_counterexample :
    (dlookup "x" (add_document emptyIndexer "d" [("a", "x"), ("b", "x")]).index).map
        (fun pm => pm.map (fun q => (q.1, q.2.field))) = some [("d", "b")] ∧
    ((add_document emptyIndexer "d" [("a", "x"), ("b", "x")]).index.all
      (fun tp => tp.2.all (fun q => q.2.field ≠ "a"))) = true := by
  constructor
  · rfl
  · rfl

/-! ### TF-IDF search (`TextIndexer.search`, C5)

Scores are Python floats; the embedding uses exact reals, with `math.log`
as `Real.log`.  Sorting a list of real-valued scores needs classical
decidability of `≤`, so the search pipeline is noncomputable. -/

/-- The field filter `field is None or entry.field == field`. -/
def fieldOk (field : Option String) (e : IndexEntry) : Bool :=
  match field with
  | none => true
  | some f => e.field == f

/-- `TextIndexer._calculate_idf` (the defaultdict access is modelled by
`getD []`; `search` only calls this for terms present in the index). -/
noncomputable def idf (st : Indexer) (term : String) : Real :=
  Real.log ((1 + st.doc_count) / (1 + ((dlookup term st.index).getD []).length)) + 1

/-- The score-accumulation loop of `TextIndexer.search`:
`scores[doc_id] += entry.tf * idf` over query terms and their postings. -/
noncomputable def searchScores (st : Indexer) (query_terms : List String)
    (field : Option String) : List (String × Real) :=
  query_terms.foldl
    (fun scores term =>
      match dlookup term st.index with
      | none => scores
      | some pm =>
        pm.foldl
          (fun scores de =>
            if fieldOk field de.2 then
              dinsert de.1 ((dlookup de.1 scores).getD 0 + (de.2.tf : Real) * idf st term)
                scores
            else scores)
          scores)
    []

noncomputable instance scoreDescDec :
    DecidableRel (fun a b : String × Real => b.2 ≤ a.2) :=
  fun _ _ => Classical.propDecidable _

/-- Python `sorted(scores.items(), key=lambda x: x[1], reverse=True)`. -/
noncomputable def sortByScoreDesc (l : List (String × Real)) : List (String × Real) :=
  List.insertionSort (fun a b => b.2 ≤ a.2) l

/-- `TextIndexer.search`: ranked `(doc_id, score, content)` results. -/
noncomputable def searchTFIDF (st : Indexer) (query : String) (field : Option String) :
    List (String × Real × List (String × String)) :=
  (sortByScoreDesc (searchScores st (pyTokenize query) field)).map
    (fun p => (p.1, p.2, (dlookup p.1 st.documents).getD []))

/-- Spec-side score: the sum over the tokenized query terms of
`term_frequency * (ln((1 + N) / (1 + docs_with_term)) + 1)` over the terms
that have a posting for the document (restricted to the field). -/
noncomputable def scoreSum (st : Indexer) (query_terms : List String)
    (field : Option String) (d : String) : Real :=
  (query_terms.map (fun term =>
    match dlookup term st.index with
    | none => 0
    | some pm =>
      match dlookup d pm with
      | none => 0
      | some e =>
        if fieldOk field e then
          (e.tf : Real) * (Real.log ((1 + st.doc_count) / (1 + pm.length)) + 1)
        else 0)).sum

/-- Spec-side membership: some tokenized query term has a posting for the
document, within the field restriction. -/
def matchesQuery (st : Indexer) (query_terms : List String) (field : Option String)
    (d : String) : Prop :=
  ∃ term ∈ query_terms, ∃ pm e, dlookup term st.index = some pm ∧
    dlookup d pm = some e ∧ fieldOk field e = true

/-- One term's inner loop over its posting map. -/
theorem inner_fold_lookup (st : Indexer) (term : String) (field : Option String)
    (d : String) (pm : List (String × IndexEntry)) (hnd : NodupKeys pm) :
    ∀ scores : List (String × Real),
      dlookup d (pm.foldl
        (fun scores de =>
          if fieldOk field de.2 then
            dinsert de.1 ((dlookup de.1 scores).getD 0 + (de.2.tf : Real) * idf st term)
              scores
          else scores)
        scores) =
      (match dlookup d pm with
       | none => dlookup d scores
       | some e =>
         if fieldOk field e then
           some ((dlookup d scores).getD 0 + (e.tf : Real) * idf st term)
         else dlookup d scores) := by
  induction pm with
  | nil => intro scores; rfl
  | cons de rest ih =>
    intro scores
    obtain ⟨dk, e0⟩ := de
    have hn2 : (dk :: rest.map Prod.fst).Nodup := by
      simpa only [NodupKeys, List.map_cons] using hnd
    have hdk : dk ∉ rest.map Prod.fst := (List.nodup_cons.mp hn2).1
    have hrest : NodupKeys rest := (List.nodup_cons.mp hn2).2
    simp only [List.foldl_cons]
    rw [ih hrest]
    by_cases hde : dk = d
    · subst hde
      have hnone : dlookup dk rest = none := by
        apply dlookup_eq_none_of_keys
        intro p hp hcontra
        exact hdk (hcontra ▸ List.mem_map_of_mem Prod.fst hp)
      have hhead : dlookup dk ((dk, e0) :: rest) = some e0 := by simp
      rw [hnone, hhead]
      by_cases hf : fieldOk field e0 = true <;>
        simp [hf, dlookup_dinsert]
    · have hhead : dlookup d ((dk, e0) :: rest) = dlookup d rest := by
        simp [hde]
      rw [hhead]
      have hlk : ∀ (v : Real) (l : List (String × Real)),
          dlookup d (dinsert dk v l) = dlookup d l :=
        fun v l => dlookup_dinsert_ne d dk v l hde
      by_cases hf : fieldOk field e0 = true <;>
        cases hr : dlookup d rest <;>
        simp [hf, hr, hlk]

theorem inner_fold_none (st : Indexer) (term : String) (field : Option String)
    (d : String) (pm : List (String × IndexEntry)) (hnd : NodupKeys pm)
    (hd : dlookup d pm = none) (scores : List (String × Real)) :
    dlookup d (pm.foldl
      (fun scores de =>
        if fieldOk field de.2 then
          dinsert de.1 ((dlookup de.1 scores).getD 0 + (de.2.tf : Real) * idf st term)
            scores
        else scores)
      scores) = dlookup d scores := by
  rw [inner_fold_lookup st term field d pm hnd scores, hd]

theorem inner_fold_nofield (st : Indexer) (term : String) (field : Option String)
    (d : String) (pm : List (String × IndexEntry)) (e : IndexEntry) (hnd : NodupKeys pm)
    (hd : dlookup d pm = some e) (hf : fieldOk field e = false)
    (scores : List (String × Real)) :
    dlookup d (pm.foldl
      (fun scores de =>
        if fieldOk field de.2 then
          dinsert de.1 ((dlookup de.1 scores).getD 0 + (de.2.tf : Real) * idf st term)
            scores
        else scores)
      scores) = dlookup d scores := by
  rw [inner_fold_lookup st term field d pm hnd scores, hd]
  simp [hf]

theorem inner_fold_hit (st : Indexer) (term : String) (field : Option String)
    (d : String) (pm : List (String × IndexEntry)) (e : IndexEntry) (hnd : NodupKeys pm)
    (hd : dlookup d pm = some e) (hf : fieldOk field e = true)
    (scores : List (String × Real)) :
    dlookup d (pm.foldl
      (fun scores de =>
        if fieldOk field de.2 then
          dinsert de.1 ((dlookup de.1 scores).getD 0 + (de.2.tf : Real) * idf st term)
            scores
        else scores)
      scores) = some ((dlookup d scores).getD 0 + (e.tf : Real) * idf st term) := by
  rw [inner_fold_lookup st term field d pm hnd scores, hd]
  simp [hf]

open Classical in
/-- The outer loop over query terms: the accumulated score dictionary binds a
document iff it was already bound or some processed term hits it, and its
value accumulates the per-term contributions. -/
theorem outer_fold_lookup (st : Indexer) (field : Option String) (d : String)
    (hpm : ∀ p ∈ st.index, NodupKeys p.2) :
    ∀ (terms : List String) (scores : List (String × Real)),
      dlookup d (terms.foldl
        (fun scores term =>
          match dlookup term st.index with
          | none => scores
          | some pm =>
            pm.foldl
              (fun scores de =>
                if fieldOk field de.2 then
                  dinsert de.1
                    ((dlookup de.1 scores).getD 0 + (de.2.tf : Real) * idf st term)
                    scores
                else scores)
              scores) scores) =
      (if (∃ term ∈ terms, ∃ pm e, dlookup term st.index = some pm ∧
            dlookup d pm = some e ∧ fieldOk field e = true) ∨
          (dlookup d scores).isSome = true
       then some ((dlookup d scores).getD 0 + scoreSum st terms field d)
       else none) := by
  intro terms
  induction terms with
  | nil =>
    intro scores
    simp only [List.foldl_nil, scoreSum, List.map_nil, List.sum_nil]
    cases hs : dlookup d scores with
    | none => simp
    | some v => simp
  | cons term rest ih =>
    intro scores
    simp only [List.foldl_cons]
    cases ht : dlookup term st.index with
    | none =>
      rw [ih scores]
      have hnohit : ¬∃ pm e, dlookup term st.index = some pm ∧
          dlookup d pm = some e ∧ fieldOk field e = true := by
        rintro ⟨pm, e, hpm', _⟩
        rw [ht] at hpm'
        exact Option.noConfusion hpm'
      have hsum : scoreSum st (term :: rest) field d = scoreSum st rest field d := by
        simp only [scoreSum, List.map_cons, List.sum_cons, ht]
        ring
      rw [hsum]
      congr 1
      simp only [List.mem_cons, eq_iff_iff]
      constructor
      · rintro (⟨t, ht', hhit⟩ | hs)
        · exact Or.inl ⟨t, Or.inr ht', hhit⟩
        · exact Or.inr hs
      · rintro (⟨t, ht', hhit⟩ | hs)
        · rcases ht' with rfl | ht''
          · exact absurd hhit hnohit
          · exact Or.inl ⟨t, ht'', hhit⟩
        · exact Or.inr hs
    | some pm =>
      have hnd : NodupKeys pm := hpm _ (dlookup_mem ht)
      rw [ih _]
      cases hd : dlookup d pm with
      | none =>
        rw [inner_fold_none st term field d pm hnd hd scores]
        have hnohit : ¬∃ pm' e, dlookup term st.index = some pm' ∧
            dlookup d pm' = some e ∧ fieldOk field e = true := by
          rintro ⟨pm', e, hpm', hd', _⟩
          rw [ht] at hpm'
          injection hpm' with hpp
          subst hpp
          rw [hd] at hd'
          exact Option.noConfusion hd'
        have hsum : scoreSum st (term :: rest) field d = scoreSum st rest field d := by
          simp only [scoreSum, List.map_cons, List.sum_cons, ht, hd, zero_add]
        rw [hsum]
        congr 1
        simp only [List.mem_cons, eq_iff_iff]
        constructor
        · rintro (⟨t, ht', hhit⟩ | hs)
          · exact Or.inl ⟨t, Or.inr ht', hhit⟩
          · exact Or.inr hs
        · rintro (⟨t, ht', hhit⟩ | hs)
          · rcases ht' with rfl | ht''
            · exact absurd hhit hnohit
            · exact Or.inl ⟨t, ht'', hhit⟩
          · exact Or.inr hs
      | some e =>
        cases hfb : fieldOk field e with
        | false =>
          rw [inner_fold_nofield st term field d pm e hnd hd hfb scores]
          have hnohit : ¬∃ pm' e', dlookup term st.index = some pm' ∧
              dlookup d pm' = some e' ∧ fieldOk field e' = true := by
            rintro ⟨pm', e', hpm', hd', hf'⟩
            rw [ht] at hpm'
            injection hpm' with hpp
            subst hpp
            rw [hd] at hd'
            injection hd' with hee
            subst hee
            rw [hfb] at hf'
            exact Bool.noConfusion hf'
          have hsum : scoreSum st (term :: rest) field d = scoreSum st rest field d := by
            simp only [scoreSum, List.map_cons, List.sum_cons, ht, hd, hfb,
              Bool.false_eq_true, if_false, zero_add]
          rw [hsum]
          congr 1
          simp only [List.mem_cons, eq_iff_iff]
          constructor
          · rintro (⟨t, ht', hhit⟩ | hs)
            · exact Or.inl ⟨t, Or.inr ht', hhit⟩
            · exact Or.inr hs
          · rintro (⟨t, ht', hhit⟩ | hs)
            · rcases ht' with rfl | ht''
              · exact absurd hhit hnohit
              · exact Or.inl ⟨t, ht'', hhit⟩
            · exact Or.inr hs
        | true =>
          rw [inner_fold_hit st term field d pm e hnd hd hfb scores]
          have hhit : ∃ t' ∈ term :: rest, ∃ pm' e', dlookup t' st.index = some pm' ∧
              dlookup d pm' = some e' ∧ fieldOk field e' = true :=
            ⟨term, List.mem_cons_self _ _, pm, e, ht, hd, hfb⟩
          have hidf : idf st term =
              Real.log ((1 + st.doc_count) / (1 + pm.length)) + 1 := by
            unfold idf
            rw [ht]
            rfl
          have hcontrib : scoreSum st (term :: rest) field d =
              (e.tf : Real) * (Real.log ((1 + st.doc_count) / (1 + pm.length)) + 1) +
                scoreSum st rest field d := by
            simp only [scoreSum, List.map_cons, List.sum_cons, ht, hd, hfb, if_true]
          rw [if_pos (Or.inr (by simp)), if_pos (Or.inl hhit)]
          simp only [Option.getD_some]
          rw [hcontrib, hidf]
          congr 1
          ring

theorem dlookup_of_mem_nodup {β : Type} {k : String} {v : β} {l : List (String × β)}
    (hn : NodupKeys l) (h : (k, v) ∈ l) : dlookup k l = some v := by
  cases he : dlookup k l with
  | none =>
    have h1 := dlookup_isSome_of_mem h
    rw [he] at h1
    simp at h1
  | some v' =>
    rw [nodup_mem_eq hn (dlookup_mem he) h]

theorem nodup_subset_length {l₁ l₂ : List String} (hn : l₁.Nodup)
    (hs : ∀ x ∈ l₁, x ∈ l₂) : l₁.length ≤ l₂.length := by
  have h1 : l₁.toFinset.card = l₁.length := List.toFinset_card_of_nodup hn
  have h2 : l₁.toFinset ⊆ l₂.toFinset := by
    intro x hx
    rw [List.mem_toFinset] at hx ⊢
    exact hs x hx
  have h3 := Finset.card_le_card h2
  have h4 := List.toFinset_card_le l₂
  omega

/-- In a reachable state, the number of documents carrying a term never
exceeds the document counter. -/
theorem docs_with_term_le (st : Indexer) (hinv : IdxInv st) (term : String)
    (pm : List (String × IndexEntry)) (ht : dlookup term st.index = some pm) :
    pm.length ≤ st.doc_count := by
  obtain ⟨⟨hn, hpm⟩, hdn, hcount⟩ := hinv
  obtain ⟨hA, hB, hC⟩ := hpm _ (dlookup_mem ht)
  have hlen : pm.length = (pm.map Prod.fst).length := by simp
  rw [hlen]
  have hsub : ∀ x ∈ pm.map Prod.fst, x ∈ st.documents.map Prod.fst := by
    intro x hx
    obtain ⟨q, hq, rfl⟩ := List.mem_map.mp hx
    have hsome := (hC q hq).1
    obtain ⟨v, hv⟩ := Option.isSome_iff_exists.mp hsome
    exact List.mem_map_of_mem Prod.fst (dlookup_mem hv)
  have h5 : (pm.map Prod.fst).length ≤ (st.documents.map Prod.fst).length :=
    nodup_subset_length hA hsub
  have hd : (st.documents.map Prod.fst).length = st.documents.length := by simp
  omega

theorem scoreSum_nonneg (st : Indexer) (hinv : IdxInv st) (terms : List String)
    (field : Option String) (d : String) : 0 ≤ scoreSum st terms field d := by
  unfold scoreSum
  apply List.sum_nonneg
  intro x hx
  obtain ⟨term, hterm, rfl⟩ := List.mem_map.mp hx
  cases ht : dlookup term st.index with
  | none => simp
  | some pm =>
    simp only [ht]
    cases hd : dlookup d pm with
    | none => simp
    | some e =>
      simp only []
      by_cases hf : fieldOk field e = true
      · rw [if_pos hf]
        have htf : 0 ≤ e.tf := by
          obtain ⟨⟨hn, hpm⟩, _, _⟩ := hinv
          exact ((hpm _ (dlookup_mem ht)).2.2 _ (dlookup_mem hd)).2
        have hpl : pm.length ≤ st.doc_count := docs_with_term_le st hinv term pm ht
        have hx1 : (1 : Real) ≤ (1 + st.doc_count) / (1 + pm.length) := by
          rw [le_div_iff (by positivity)]
          have : (pm.length : Real) ≤ st.doc_count := Nat.cast_le.mpr hpl
          linarith
        have hlog := Real.log_nonneg hx1
        have htfR : (0 : Real) ≤ (e.tf : Real) := by exact_mod_cast htf
        nlinarith
      · rw [if_neg hf]

theorem searchScores_nodup (st : Indexer) (terms : List String) (field : Option String) :
    NodupKeys (searchScores st terms field) := by
  unfold searchScores
  have hstep2 : ∀ (term : String) (sc : List (String × Real)) (de : String × IndexEntry),
      NodupKeys sc →
      NodupKeys (if fieldOk field de.2 then
        dinsert de.1 ((dlookup de.1 sc).getD 0 + (de.2.tf : Real) * idf st term) sc
      else sc) := by
    intro term sc de hsc
    by_cases hf : fieldOk field de.2 = true
    · rw [if_pos hf]
      exact nodup_dinsert hsc
    · rw [if_neg hf]
      exact hsc
  have hstep : ∀ (scores : List (String × Real)) (term : String), NodupKeys scores →
      NodupKeys (match dlookup term st.index with
        | none => scores
        | some pm =>
          pm.foldl
            (fun scores de =>
              if fieldOk field de.2 then
                dinsert de.1 ((dlookup de.1 scores).getD 0 + (de.2.tf : Real) * idf st term)
                  scores
              else scores)
            scores) := by
    intro scores term h
    cases ht : dlookup term st.index with
    | none => exact h
    | some pm => exact foldl_preserve NodupKeys _ (hstep2 term) pm scores h
  exact foldl_preserve NodupKeys _ hstep terms [] (by simp [NodupKeys])

open Classical in
theorem searchScores_lookup (st : Indexer)
    (hpm : ∀ p ∈ st.index, NodupKeys p.2) (terms : List String)
    (field : Option String) (d : String) :
    dlookup d (searchScores st terms field) =
      if matchesQuery st terms field d then some (scoreSum st terms field d) else none := by
  unfold searchScores
  rw [outer_fold_lookup st field d hpm terms []]
  simp [matchesQuery]

/-- C5: `search(query, field?)` on any reachable indexer state returns
exactly the documents for which at least one tokenized query term has a
posting (restricted to the given field when supplied); each returned
document is scored by the sum over matching query terms of
`term_frequency * (ln((1 + N) / (1 + docs_with_term)) + 1)` with `N` the
document counter; every returned score is non-negative; and the results are
sorted by descending score. -/
theorem c5_search_ranked_results (ops : List IdxOp) (query : String)
    (field : Option String) :
    (∀ d, (∃ s c, (d, s, c) ∈ searchTFIDF (applyIdxOps ops) query field) ↔
      matchesQuery (applyIdxOps ops) (pyTokenize query) field d) ∧
    (∀ d s c, (d, s, c) ∈ searchTFIDF (applyIdxOps ops) query field →
      s = scoreSum (applyIdxOps ops) (pyTokenize query) field d) ∧
    (∀ d s c, (d, s, c) ∈ searchTFIDF (applyIdxOps ops) query field → 0 ≤ s) ∧
    (searchTFIDF (applyIdxOps ops) query field).Sorted (fun a b => b.2.1 ≤ a.2.1) := by
  have hinv := idxInv_reachable ops
  have hpm2 : ∀ p ∈ (applyIdxOps ops).index, NodupKeys p.2 := fun p hp =>
    (hinv.1.2 p hp).1
  have hnsc := searchScores_nodup (applyIdxOps ops) (pyTokenize query) field
  have hperm : (sortByScoreDesc (searchScores (applyIdxOps ops) (pyTokenize query)
      field)).Perm (searchScores (applyIdxOps ops) (pyTokenize query) field) :=
    List.perm_insertionSort _ _
  have hlook := searchScores_lookup (applyIdxOps ops) hpm2 (pyTokenize query) field
  have hmem : ∀ d s, ((d, s) ∈ searchScores (applyIdxOps ops) (pyTokenize query) field) →
      dlookup d (searchScores (applyIdxOps ops) (pyTokenize query) field) = some s :=
    fun d s h => dlookup_of_mem_nodup hnsc h
  refine ⟨?_, ?_, ?_, ?_⟩
  · intro d
    constructor
    · rintro ⟨s, c, hin⟩
      obtain ⟨p, hp, hpe⟩ := List.mem_map.mp hin
      have hp1 : p.1 = d := congrArg Prod.fst hpe
      have hsc : (d, p.2) ∈ searchScores (applyIdxOps ops) (pyTokenize query) field := by
        rw [← hp1]
        exact hperm.mem_iff.mp hp
      have := hmem d p.2 hsc
      rw [hlook d] at this
      by_cases hm : matchesQuery (applyIdxOps ops) (pyTokenize query) field d
      · exact hm
      · rw [if_neg hm] at this
        exact Option.noConfusion this
    · intro hm
      have hsome := hlook d
      rw [if_pos hm] at hsome
      have hin : (d, scoreSum (applyIdxOps ops) (pyTokenize query) field d) ∈
          searchScores (applyIdxOps ops) (pyTokenize query) field := dlookup_mem hsome
      have hin2 := hperm.mem_iff.mpr hin
      refine ⟨scoreSum (applyIdxOps ops) (pyTokenize query) field d,
        (dlookup d (applyIdxOps ops).documents).getD [], ?_⟩
      have := List.mem_map_of_mem
        (fun p : String × Real => (p.1, p.2, (dlookup p.1 (applyIdxOps ops).documents).getD []))
        hin2
      simpa [searchTFIDF] using this
  · intro d s c hin
    obtain ⟨p, hp, hpe⟩ := List.mem_map.mp hin
    have hp1 : p.1 = d := congrArg Prod.fst hpe
    have hp2 : p.2 = s := congrArg (fun x => x.2.1) hpe
    have hsc : (d, s) ∈ searchScores (applyIdxOps ops) (pyTokenize query) field := by
      rw [← hp1, ← hp2]
      exact hperm.mem_iff.mp hp
    have := hmem d s hsc
    rw [hlook d] at this
    by_cases hm : matchesQuery (applyIdxOps ops) (pyTokenize query) field d
    · rw [if_pos hm] at this
      injection this with h
      exact h.symm
    · rw [if_neg hm] at this
      exact Option.noConfusion this
  · intro d s c hin
    obtain ⟨p, hp, hpe⟩ := List.mem_map.mp hin
    have hp1 : p.1 = d := congrArg Prod.fst hpe
    have hp2 : p.2 = s := congrArg (fun x => x.2.1) hpe
    have hsc : (d, s) ∈ searchScores (applyIdxOps ops) (pyTokenize query) field := by
      rw [← hp1, ← hp2]
      exact hperm.mem_iff.mp hp
    have := hmem d s hsc
    rw [hlook d] at this
    by_cases hm : matchesQuery (applyIdxOps ops) (pyTokenize query) field d
    · rw [if_pos hm] at this
      injection this with h
      rw [← h]
      exact scoreSum_nonneg (applyIdxOps ops) hinv (pyTokenize query) field d
    · rw [if_neg hm] at this
      exact Option.noConfusion this
  · haveI hT : IsTotal (String × Real) (fun a b => b.2 ≤ a.2) :=
      ⟨fun a b => le_total b.2 a.2⟩
    haveI hTr : IsTrans (String × Real) (fun a b => b.2 ≤ a.2) :=
      ⟨fun a b c h1 h2 => le_trans h2 h1⟩
    have hsorted : (sortByScoreDesc (searchScores (applyIdxOps ops) (pyTokenize query)
        field)).Sorted (fun a b => b.2 ≤ a.2) :=
      List.sorted_insertionSort _ _
    unfold searchTFIDF
    exact List.Pairwise.map _ (fun a b h => h) hsorted

/-! ## Fuzzy search (viper_logs/fuzzy_search.py)

`levenshtein_distance` is the two-row dynamic program of the source; its
value is related to the textbook cell recurrence `levCell` (cell `(i, j)` is
the edit distance between the length-`i` prefix of `s` and the length-`j`
prefix of `t`). -/

/-- The inner loop of the dynamic program:
`current_row.append(min(prev[j+1]+1, cur[j]+1, prev[j]+cost))` over the
remaining characters of `s2`, with `last` the previously appended value. -/
def levRowAux (c1 : Char) : List Char → List Nat → Nat → List Nat
  | [], _, _ => []
  | c2 :: rest, prev, last =>
    let v := min (min (prev.getD 1 0 + 1) (last + 1))
      (prev.getD 0 0 + if c1 = c2 then 0 else 1)
    v :: levRowAux c1 rest prev.tail v

/-- The outer loop: starting from `previous_row = range(len(s2)+1)`, build
one row per character of `s1` and return the final row. -/
def levRows (s1 s2 : List Char) : List Nat :=
  s1.enum.foldl
    (fun prev p => (p.1 + 1) :: levRowAux p.2 s2 prev (p.1 + 1))
    (List.range (s2.length + 1))

/-- `levenshtein_distance` (the argument swap guarantees `len(s1) >= len(s2)`
after at most one recursive call). -/
def levenshtein_distance (s1 s2 : List Char) : Nat :=
  if s1.length < s2.length then levenshtein_distance s2 s1
  else if s2.length = 0 then s1.length
  else (levRows s1 s2).getLastD 0
termination_by (if s1.length < s2.length then 1 else 0)
decreasing_by
  rename_i h
  rw [if_pos h, if_neg (by omega)]
  omega


/-- Python `set.add`. -/
def setAdd (x : String) (l : List String) : List String := if x ∈ l then l else l ++ [x]

structure FuzzyIndex where
  term_docs : List (String × List String)
  doc_terms : List (String × List String)

def emptyFuzzy : FuzzyIndex := ⟨[], []⟩

/-- `FuzzySearchIndex.add_term`. -/
def fuzzy_add_term (fi : FuzzyIndex) (term doc_id : String) : FuzzyIndex :=
  { term_docs := dinsert (pyLower term)
      (setAdd doc_id ((dlookup (pyLower term) fi.term_docs).getD [])) fi.term_docs,
    doc_terms := dinsert doc_id
      (setAdd (pyLower term) ((dlookup doc_id fi.doc_terms).getD [])) fi.doc_terms }

/-- One candidate's similarity: `1 - distance / max_len`; `none` models the
`ZeroDivisionError` raised when both strings are empty. -/
def fuzzy_sim (query term : String) : Option Rat :=
  if max query.length term.length = 0 then none
  else some (1 - (levenshtein_distance query.data term.data : Rat) /
    (max query.length term.length : Rat))

/-- The accumulation loop of `FuzzySearchIndex.search`; `none` models an
escaped exception. -/
def fuzzy_search_scores (fi : FuzzyIndex) (query : String) (threshold : Rat) :
    Option (List (String × Rat)) :=
  fi.term_docs.foldl
    (fun acc tp =>
      match acc with
      | none => none
      | some m =>
        match fuzzy_sim (pyLower query) tp.1 with
        | none => none
        | some sim =>
          if threshold ≤ sim then
            some (tp.2.foldl (fun m doc => dinsert doc ((dlookup doc m).getD 0 + sim) m) m)
          else some m)
    (some [])

/-- `FuzzyTextIndexer.fuzzy_search`: ranked results (the `field` parameter
of the source is ignored by the implementation). -/
def fuzzy_search (fi : FuzzyIndex) (documents : List (String × List (String × String)))
    (query : String) (threshold : Rat) :
    Option (List (String × Rat × List (String × String))) :=
  match fuzzy_search_scores fi query threshold with
  | none => none
  | some scores =>
    some ((List.insertionSort (fun a b : String × Rat => b.2 ≤ a.2) scores).map
      (fun p => (p.1, p.2, (dlookup p.1 documents).getD [])))

/-- Python `str.upper()` (ASCII). -/
def pyUpper (s : String) : String := ⟨s.data.map Char.toUpper⟩

def listPrefixB : List Char → List Char → Bool
  | [], _ => true
  | _ :: _, [] => false
  | c :: ns, d :: hs => c == d && listPrefixB ns hs

def subStrAux : List Char → List Char → Bool
  | n, [] => listPrefixB n []
  | n, d :: hs => listPrefixB n (d :: hs) || subStrAux n hs

/-- Python substring membership `needle in hay`. -/
def pySubStr (needle hay : String) : Bool := subStrAux needle.data hay.data

/-- `BooleanParser._tokenize`: space out parentheses, split on whitespace.
`cur` is the current run in reverse. -/
def boolTokAux : List Char → List Char → List String
  | cur, [] => if cur.isEmpty then [] else [String.mk cur.reverse]
  | cur, c :: rest =>
    if c = '(' ∨ c = ')' then
      (if cur.isEmpty then [] else [String.mk cur.reverse]) ++
        String.mk [c] :: boolTokAux [] rest
    else if c.isWhitespace then
      (if cur.isEmpty then [] else [String.mk cur.reverse]) ++ boolTokAux [] rest
    else boolTokAux (c :: cur) rest

/-- The token list `BooleanParser.parse` hands to `_parse_expression`:
upper-case, then tokenize. -/
def boolTokenize (query : String) : List String := boolTokAux [] (pyUpper query).data

/-- The term branch of `_evaluate_expression`: doc ids of the entries whose
term contains the query term as a substring, restricted to `field` when one
is given. -/
def evalTermDocs (st : Indexer) (field : Option String) (t : String) : List String :=
  st.index.foldl
    (fun acc te =>
      if pySubStr (pyLower t) (pyLower te.1) then
        te.2.foldl
          (fun acc de =>
            match field with
            | none => setAdd de.1 acc
            | some f => if de.2.field = f then setAdd de.1 acc else acc)
          acc
      else acc)
    []

/-- `BooleanSearchIndexer._evaluate_expression`; `none` models an escaped
exception (evaluating a `None` right operand raises `AttributeError`).  An
operator that is neither `AND` nor `OR` (the `True` a dangling `NOT` left on
the stack) falls through to `return left_result`. -/
def evalBExpr (st : Indexer) (field : Option String) : BExpr → Option (List String)
  | .term t negated =>
    let td := evalTermDocs st field t
    some (if negated then (st.documents.map Prod.fst).filter (fun d => !td.contains d)
          else td)
  | .expr left operator right =>
    match evalBExpr st field left with
    | none => none
    | some lres =>
      match operator with
      | .op .and =>
        match right with
        | none => none
        | some r =>
          match evalBExpr st field r with
          | none => none
          | some rres => some (lres.filter (fun d => rres.contains d))
      | .op .or =>
        match right with
        | none => none
        | some r =>
          match evalBExpr st field r with
          | none => none
          | some rres => some (rres.foldl (fun acc d => setAdd d acc) lres)
      | .neg => some lres

/-- Evaluating the parser's result: a `None` expression (empty query)
raises `AttributeError` inside `_evaluate_expression`. -/
def evalTop (st : Indexer) (field : Option String) : Option BExpr → Option (List String)
  | none => none
  | some e => evalBExpr st field e

/-- `BooleanSearchIndexer.boolean_search`: the whole pipeline runs inside
`try`, and every fault — parser `IndexError`, evaluator `AttributeError`,
`KeyError` on `self.documents[doc_id]` — is caught and turned into `[]`. -/
def boolean_search (st : Indexer) (field : Option String) (query : String) :
    List (String × List (String × String)) :=
  match parseExpression (boolTokenize query) with
  | .error _ => []
  | .ok oe =>
    match evalTop st field oe with
    | none => []
    | some docs =>
      match docs.mapM (fun d => (dlookup d st.documents).map (fun c => (d, c))) with
      | none => []
      | some results => results

/-- C10 (amended): `boolean_search` never propagates an internal
parser/evaluator fault: a parse error, an evaluation fault, and a failed
document lookup each surface as the empty result list, and on a fault-free
run the evaluated documents are returned; `fuzzy_search`, by contrast, has
no handler and propagates the similarity computation's `ZeroDivisionError`
(result `none`) instead of degrading to an empty list. -/
theorem c10_fault_handling (st : Indexer) (field : Option String) (query : String) :
    (∀ e, parseExpression (boolTokenize query) = .error e →
      boolean_search st field query = []) ∧
    (∀ oe, parseExpression (boolTokenize query) = .ok oe →
      evalTop st field oe = none → boolean_search st field query = []) ∧
    (∀ oe docs, parseExpression (boolTokenize query) = .ok oe →
      evalTop st field oe = some docs →
      docs.mapM (fun d => (dlookup d st.documents).map (fun c => (d, c))) = none →
      boolean_search st field query = []) ∧
    (∀ oe docs res, parseExpression (boolTokenize query) = .ok oe →
      evalTop st field oe = some docs →
      docs.mapM (fun d => (dlookup d st.documents).map (fun c => (d, c))) = some res →
      boolean_search st field query = res) ∧
    fuzzy_search (fuzzy_add_term emptyFuzzy "" "d2")
      [("d2", [("message", "x")])] "" (1 / 2) = none := by
  refine ⟨?_, ?_, ?_, ?_, rfl⟩
  · intro e h
    simp [boolean_search, h]
  · intro oe h1 h2
    simp [boolean_search, h1, h2]
  · intro oe docs h1 h2 h3
    simp only [boolean_search, h1, h2, h3]
  · intro oe docs res h1 h2 h3
    simp only [boolean_search, h1, h2, h3]

theorem c10_fault_handling_witness :
    boolean_search emptyIndexer none "A B" = [] ∧
    boolean_search emptyIndexer none "A AND ( )" = [] ∧
    boolean_search (add_document emptyIndexer "d9" [("message", "hello")]) none "hello" =
      [("d9", [("message", "hello")])] ∧
    fuzzy_search (fuzzy_add_term emptyFuzzy "" "d2")
      [("d2", [("message", "x")])] "" (1 / 2) = none := by
  have h1 : parseExpression (boolTokenize "A B") = Except.error () := by
    simp [boolTokenize, pyUpper, boolTokAux, parseExpression, parseLoop]
  have h2 : parseExpression (boolTokenize "A AND ( )") =
      Except.ok (some (.expr (.term (pyLower "A") false) (.op .and) none)) := by
    simp [boolTokenize, pyUpper, boolTokAux, parseExpression, parseLoop, scanParen, pyLower]
  have h3 : evalTop emptyIndexer none
      (some (.expr (.term (pyLower "A") false) (.op .and) none)) = none := by
    decide
  have h4 : parseExpression (boolTokenize "hello") =
      Except.ok (some (.term (pyLower "HELLO") false)) := by
    simp [boolTokenize, pyUpper, boolTokAux, parseExpression, parseLoop, pyLower]
  have h5 : evalTop (add_document emptyIndexer "d9" [("message", "hello")]) none
      (some (.term (pyLower "HELLO") false)) = some ["d9"] := by decide
  have h6 : (["d9"] : List String).mapM
      (fun d => (dlookup d (add_document emptyIndexer "d9"
        [("message", "hello")]).documents).map (fun c => (d, c))) =
      some [("d9", [("message", "hello")])] := by decide
  exact ⟨(c10_fault_handling emptyIndexer none "A B").1 () h1,
    (c10_fault_handling emptyIndexer none "A AND ( )").2.1 _ h2 h3,
    (c10_fault_handling (add_document emptyIndexer "d9" [("message", "hello")])
      none "hello").2.2.2.1 _ _ _ h4 h5 h6,
    (c10_fault_handling emptyIndexer none "A B").2.2.2.2⟩

/-- C10 counterexample: a fuzzy search faults (empty query against the
registered empty-string candidate divides by zero) and the exception
escapes `fuzzy_search` — the result is not an empty result list, or any
list at all. -/
theorem c10_counterexample :
    fuzzy_search (fuzzy_add_term emptyFuzzy "" "d3")
      [("d3", [("message", "y")])] "" (7 / 10) = none := by rfl

/-! ## Filter-scan queries (viper_logs/search.py, `LogSearchEngine.search`) -/

/-- A persisted log record: its numeric timestamp and the rest of the JSON
object. -/
structure LogRec where
  timestamp : Rat
  payload : List (String × String)

/-- `LogQuery` as `search` consumes it: the added predicate list, the
optional time bounds set by `in_timeframe`, the optional limit, and the
sort order (`"desc"` by default). -/
structure LogQuery where
  filters : List (LogRec → Bool)
  start_time : Option Rat
  end_time : Option Rat
  limit : Option Nat
  sort_order : String

/-- The time-bound test of the scan loop: skip the record when a bound is
set and violated. -/
def timeOk (q : LogQuery) (r : LogRec) : Bool :=
  (match q.start_time with
   | none => true
   | some t0 => decide (t0 ≤ r.timestamp)) &&
  (match q.end_time with
   | none => true
   | some t1 => decide (r.timestamp ≤ t1))

/-- `LogSearchEngine.search` over the persisted records: keep the records
inside the time window that pass every filter, sort by timestamp
(descending when `sort_order = "desc"`, ascending otherwise), and truncate
to `limit` — Python's `if query.limit:` skips the truncation both when the
limit is `None` and when it is `0`. -/
def searchLogs (logs : List LogRec) (q : LogQuery) : List LogRec :=
  let results := logs.filter (fun r => timeOk q r && q.filters.all (fun f => f r))
  let sorted := List.insertionSort
    (fun a b : LogRec =>
      if q.sort_order = "desc" then b.timestamp ≤ a.timestamp
      else a.timestamp ≤ b.timestamp) results
  match q.limit with
  | none => sorted
  | some n => if n = 0 then sorted else sorted.take n

/-- C9 (amended): with the default descending sort order, a filter-scan
query returns a permutation of exactly the persisted records that satisfy
every added predicate and every set time bound (`t0 ≤ timestamp ≤ t1`),
sorted by timestamp descending; a *nonzero* limit `n` truncates the result
to at most `n` records, while `limit = 0` is falsy in the `if query.limit:`
guard and performs no truncation at all. -/
theorem c9_filter_scan (logs : List LogRec) (q : LogQuery)
    (hdesc : q.sort_order = "desc") :
    ∃ full : List LogRec,
      full.Perm (logs.filter (fun r => timeOk q r && q.filters.all (fun f => f r))) ∧
      full.Sorted (fun a b => b.timestamp ≤ a.timestamp) ∧
      (∀ r, r ∈ full ↔ (r ∈ logs ∧ (∀ f ∈ q.filters, f r) ∧
        (∀ t0, q.start_time = some t0 → t0 ≤ r.timestamp) ∧
        (∀ t1, q.end_time = some t1 → r.timestamp ≤ t1))) ∧
      searchLogs logs q =
        (match q.limit with
         | none => full
         | some n => if n = 0 then full else full.take n) ∧
      (∀ n, q.limit = some n → n ≠ 0 → (searchLogs logs q).length ≤ n) := by
  have hrel : (fun a b : LogRec =>
      if q.sort_order = "desc" then b.timestamp ≤ a.timestamp
      else a.timestamp ≤ b.timestamp) =
      (fun a b : LogRec => b.timestamp ≤ a.timestamp) := by
    funext a b
    rw [hdesc, if_pos rfl]
  refine ⟨List.insertionSort (fun a b : LogRec => b.timestamp ≤ a.timestamp)
    (logs.filter (fun r => timeOk q r && q.filters.all (fun f => f r))),
    List.perm_insertionSort _ _, ?_, ?_, ?_, ?_⟩
  · haveI hT : IsTotal LogRec (fun a b => b.timestamp ≤ a.timestamp) :=
      ⟨fun a b => le_total b.timestamp a.timestamp⟩
    haveI hTr : IsTrans LogRec (fun a b => b.timestamp ≤ a.timestamp) :=
      ⟨fun a b c h1 h2 => le_trans h2 h1⟩
    exact List.sorted_insertionSort _ _
  · intro r
    rw [(List.perm_insertionSort _ _).mem_iff, List.mem_filter]
    constructor
    · rintro ⟨hlog, hp⟩
      have hto : timeOk q r = true := (Bool.and_eq_true _ _).mp hp |>.1
      have hfl : q.filters.all (fun f => f r) = true := (Bool.and_eq_true _ _).mp hp |>.2
      obtain ⟨h0, h1⟩ := (Bool.and_eq_true _ _).mp hto
      refine ⟨hlog, fun f hf => List.all_eq_true.mp hfl f hf, ?_, ?_⟩
      · intro t0 ht0
        rw [ht0] at h0
        exact of_decide_eq_true h0
      · intro t1 ht1
        rw [ht1] at h1
        exact of_decide_eq_true h1
    · rintro ⟨hlog, hfl, h0, h1⟩
      refine ⟨hlog, ?_⟩
      rw [Bool.and_eq_true]
      constructor
      · unfold timeOk
        rw [Bool.and_eq_true]
        constructor
        · cases hs : q.start_time with
          | none => rfl
          | some t0 => exact decide_eq_true (h0 t0 hs)
        · cases he : q.end_time with
          | none => rfl
          | some t1 => exact decide_eq_true (h1 t1 he)
      · exact List.all_eq_true.mpr (fun f hf => hfl f hf)
  · simp only [searchLogs, hdesc, eq_self_iff_true, if_true]
  · intro n hn hn0
    simp only [searchLogs, hdesc, eq_self_iff_true, if_true, hn]
    rw [if_neg hn0]
    exact List.length_take_le n _

theorem c9_filter_scan_witness :
    (LogQuery.mk [] (some 1) (some 5) (some 1) "desc").sort_order = "desc" ∧
    (∃ full : List LogRec,
      full.Perm (([LogRec.mk 3 [], LogRec.mk 7 []]).filter
        (fun r => timeOk (LogQuery.mk [] (some 1) (some 5) (some 1) "desc") r &&
          (LogQuery.mk [] (some 1) (some 5) (some 1) "desc").filters.all (fun f => f r))) ∧
      full.Sorted (fun a b => b.timestamp ≤ a.timestamp) ∧
      (∀ r, r ∈ full ↔ (r ∈ [LogRec.mk 3 [], LogRec.mk 7 []] ∧
        (∀ f ∈ (LogQuery.mk [] (some 1) (some 5) (some 1) "desc").filters, f r) ∧
        (∀ t0, (LogQuery.mk [] (some 1) (some 5) (some 1) "desc").start_time = some t0 →
          t0 ≤ r.timestamp) ∧
        (∀ t1, (LogQuery.mk [] (some 1) (some 5) (some 1) "desc").end_time = some t1 →
          r.timestamp ≤ t1))) ∧
      searchLogs [LogRec.mk 3 [], LogRec.mk 7 []]
          (LogQuery.mk [] (some 1) (some 5) (some 1) "desc") =
        (match (LogQuery.mk [] (some 1) (some 5) (some 1) "desc").limit with
         | none => full
         | some n => if n = 0 then full else full.take n) ∧
      (∀ n, (LogQuery.mk [] (some 1) (some 5) (some 1) "desc").limit = some n → n ≠ 0 →
        (searchLogs [LogRec.mk 3 [], LogRec.mk 7 []]
          (LogQuery.mk [] (some 1) (some 5) (some 1) "desc")).length ≤ n)) :=
  ⟨rfl, c9_filter_scan [LogRec.mk 3 [], LogRec.mk 7 []]
    (LogQuery.mk [] (some 1) (some 5) (some 1) "desc") rfl⟩

/-- C9 counterexample: with `limit = 0` the `if query.limit:` guard is
falsy, so the result is not truncated at all — one record comes back even
though the claim promises at most `n = 0` records. -/
theorem c9_counterexample :
    searchLogs [LogRec.mk 1 []] (LogQuery.mk [] none none (some 0) "desc") =
      [LogRec.mk 1 []] ∧
    ¬ (searchLogs [LogRec.mk 1 []]
        (LogQuery.mk [] none none (some 0) "desc")).length ≤ 0 := by
  constructor
  · rfl
  · decide
